import Mathlib

/-!
Verification of the `json_rs` JSON codec (tokenizer + serde-style
deserializer/serializer) against its specification.

The Rust source is shallowly embedded as follows.

* The input `&str` and Rust's `CharIndices` iterator are modelled by a
  `List Char` of the not-yet-consumed code points together with the code-point
  offset `pos` of its head (`src/tokenizer.rs` works code point by code point;
  spans are therefore code-point offsets here where Rust uses byte offsets —
  no claim depends on the numeric value of a span over multibyte input).
* A byte-slice of the original input between two cursor positions, as used by
  `string_token` (`&self.input[start + 1..cur]`), is represented by the list of
  code points consumed between those two cursor positions; the slices taken by
  the Rust code always lie on the boundaries of the characters the tokenizer
  itself consumed, so the two representations coincide.
* Rust `u64`/`i64` become `Nat`/`Int` with explicit two's-complement wrapping
  where the code casts (`v as i64`).
* `f64` literal parsing (`str::parse::<f64>`) is modelled by its grammar plus
  the exact decimal value as a rational: success of the Rust parse is purely
  syntactic (overflow rounds to infinity, it does not error), and two numeric
  literals with the same exact decimal value parse to the same `f64`, so the
  rational model is faithful for every equality the theorems below state.
* Fallible Rust functions return `Except Error`; `&mut self` methods
  additionally return the updated state.
-/

namespace JsonRs

/-- The double-quote character (written by code to avoid a bare quote char). -/
def dq : Char := '\x22'

/-- The backslash character. -/
def bsl : Char := '\x5c'

/-- The left curly brace character. -/
def lcu : Char := '\x7b'

/-- The right curly brace character. -/
def rcu : Char := '\x7d'

/-- Embedding of `enum Error` from `src/error.rs` (payload `String`s become
`List Char`; field names follow the Rust variants). -/
inductive Error where
  | Message (msg : List Char)
  | InvalidCharInString (pos : Nat) (c : Char)
  | InvalidEscape (pos : Nat) (c : Char)
  | InvalidHexEscape (pos : Nat) (c : Char)
  | InvalidEscapeValue (pos : Nat) (v : Nat)
  | Unexpected (pos : Nat) (c : Char)
  | UnterminatedString (pos : Nat)
  | EofWhileParsingValue (pos : Nat)
  | Wanted (atPos : Nat) (expected : Char) (found : Char)
  | InvalidNumber (s : List Char)
  | NumberOutOfRange
  | NotSupportedChar (c : Char) (pos : Nat)
  | OpNotExist (s : List Char)
  | JSONKeyMustBeString
  | InvalidStructString
  | InvalidEnumString
deriving DecidableEq, Repr

/-- Embedding of `tokenizer::Result<T> = Result<T, Error>`. -/
abbrev Result (α : Type) : Type := Except Error α

/-- Embedding of `enum MaybeString` from `src/token.rs`: a borrowed slice of
the input (`NotEscaped`) or an owned decoded buffer (`Escaped`). -/
inductive MaybeString where
  | NotEscaped (s : List Char)
  | Escaped (s : List Char)
deriving DecidableEq, Repr

/-- The text content carried by either `MaybeString` variant. -/
def MaybeString.content : MaybeString → List Char
  | .NotEscaped s => s
  | .Escaped s => s

/-- Embedding of `enum ParseNumber` from `src/token.rs`. The `F64` payload is
the exact rational value of the parsed decimal literal (see the module
comment for why this models Rust's `f64` faithfully here). -/
inductive ParseNumber where
  | I64 (n : Int)
  | F64 (q : ℚ)
deriving DecidableEq, Repr

/-- Embedding of `enum Token` from `src/token.rs`. The constructor names are
lowercased because the Rust variant names `Bool`/`String` would shadow the
Lean types of the payloads. Spans are half-open `(start, end)` offset
pairs. -/
inductive Token where
  | operator (s : List Char) (span : Nat × Nat)
  | bracket (s : List Char) (span : Nat × Nat)
  | null (span : Nat × Nat)
  | bool (b : Bool) (span : Nat × Nat)
  | str (s : MaybeString) (span : Nat × Nat)
  | number (n : ParseNumber) (span : Nat × Nat)
  | eof
deriving DecidableEq, Repr

/-- Embedding of `Token::checkOp`. -/
def Token.checkOp (t : Token) (op : List Char) : Bool :=
  match t with
  | .bracket s _ => s = op
  | .operator s _ => s = op
  | _ => false

/-- Embedding of `Token::is_left_bracket`. -/
def Token.is_left_bracket (t : Token) : Bool := t.checkOp ['[']

/-- Embedding of `Token::is_right_bracket`. -/
def Token.is_right_bracket (t : Token) : Bool := t.checkOp [']']

/-- Embedding of `Token::is_left_curly`. -/
def Token.is_left_curly (t : Token) : Bool := t.checkOp [lcu]

/-- Embedding of `Token::is_right_curly`. -/
def Token.is_right_curly (t : Token) : Bool := t.checkOp [rcu]

/-- Embedding of `Token::is_colon`. -/
def Token.is_colon (t : Token) : Bool := t.checkOp [':']

/-- Embedding of `Token::is_comma`. -/
def Token.is_comma (t : Token) : Bool := t.checkOp [',']

/-- Embedding of `struct Tokenizer`: `rest` is the unconsumed tail of the
input (the `chars: CharIndices` iterator) and `pos` the offset of its head.
The original full input slice is not stored separately: every slice the Rust
code takes from it is reconstructed from the consumed characters. -/
structure Tokenizer where
  rest : List Char
  pos : Nat
deriving DecidableEq, Repr

/-- Embedding of `fn is_whitespace_char`. -/
def is_whitespace_char (c : Char) : Bool :=
  c = ' ' || c = '\t' || c = '\x0d' || c = '\n'

/-- Embedding of `fn is_digit_char` (the characters the number scan keeps
consuming: digits, dot, exponent letters and signs). -/
def is_digit_char (c : Char) : Bool :=
  c.isDigit || c = '.' || c = 'e' || c = 'E' || c = '-' || c = '+'

/-- Embedding of `Tokenizer::next_char`: pop one code point, reporting its
offset, like `CharIndices::next`. -/
def Tokenizer.next_char (t : Tokenizer) : Option (Nat × Char) × Tokenizer :=
  match t.rest with
  | [] => (none, t)
  | c :: cs => (some (t.pos, c), ⟨cs, t.pos + 1⟩)

/-- Embedding of `Tokenizer::peek_char` (look at one code point without
consuming). -/
def Tokenizer.peek_char (t : Tokenizer) : Option (Nat × Char) :=
  t.next_char.1

/-- Embedding of `Tokenizer::current`: the offset just past everything
consumed so far. -/
def Tokenizer.current (t : Tokenizer) : Nat := t.pos

/-- Loop body of `Tokenizer::eat_whitespace`, recursing on the unconsumed
characters. -/
def eatWhitespaceAux : List Char → Nat → List Char × Nat
  | c :: cs, p => if is_whitespace_char c then eatWhitespaceAux cs (p + 1) else (c :: cs, p)
  | [], p => ([], p)

/-- Embedding of `Tokenizer::eat_whitespace`. -/
def Tokenizer.eat_whitespace (t : Tokenizer) : Tokenizer :=
  ⟨(eatWhitespaceAux t.rest t.pos).1, (eatWhitespaceAux t.rest t.pos).2⟩

/-- Embedding of `Tokenizer::eatc` (consume one code point iff it equals
`c`). -/
def Tokenizer.eatc (t : Tokenizer) (c : Char) : Bool × Tokenizer :=
  match t.rest with
  | c' :: cs => if c' = c then (true, ⟨cs, t.pos + 1⟩) else (false, t)
  | [] => (false, t)

/-- Embedding of `Tokenizer::new`: start at offset zero and skip a single
leading byte-order mark. -/
def Tokenizer.new (input : List Char) : Tokenizer :=
  ((Tokenizer.mk input 0).eatc '\uFEFF').2

/-- Embedding of `Tokenizer::parse_ident`: match the expected literal tail
character by character. -/
def parse_ident : List Char → List Char → Nat → (Result Unit) × List Char × Nat
  | [], rest, pos => (.ok (), rest, pos)
  | e :: es, rest, pos =>
    match rest with
    | [] => (.error (.EofWhileParsingValue pos), [], pos)
    | c :: cs =>
      if c = e then parse_ident es cs (pos + 1)
      else (.error (.Wanted pos e c), cs, pos + 1)

/-- Embedding of `Tokenizer::bool_token`. -/
def bool_token (val : Bool) (start : Nat) (rest : List Char) (pos : Nat) :
    (Result Token) × List Char × Nat :=
  match parse_ident (if val then ['r', 'u', 'e'] else ['a', 'l', 's', 'e']) rest pos with
  | (.ok _, r, p) => (.ok (.bool val (start, p)), r, p)
  | (.error e, r, p) => (.error e, r, p)

/-- Embedding of `Tokenizer::null_token`. -/
def null_token (start : Nat) (rest : List Char) (pos : Nat) :
    (Result Token) × List Char × Nat :=
  match parse_ident ['u', 'l', 'l'] rest pos with
  | (.ok _, r, p) => (.ok (.null (start, p)), r, p)
  | (.error e, r, p) => (.error e, r, p)

/-- Scan loop of `Tokenizer::number_token`: consume while `is_digit_char`
holds, returning the consumed characters (the Rust `is_scientific` flag is
set in that loop but never read, so it is omitted). -/
def numberScanAux : List Char → Nat → List Char × List Char × Nat
  | c :: cs, p =>
    if is_digit_char c then
      match numberScanAux cs (p + 1) with
      | (consumed, r, p') => (c :: consumed, r, p')
    else ([], c :: cs, p)
  | [], p => ([], [], p)

/-- Value of a list of decimal digit characters, most significant first. -/
def digitsNatVal (l : List Char) : Nat :=
  l.foldl (fun a c => a * 10 + (c.toNat - '0'.toNat)) 0

/-- Strip the optional single leading sign of a Rust numeric literal,
returning whether it was a minus and the remaining characters. -/
def signSplit : List Char → Bool × List Char
  | [] => (false, [])
  | c :: r =>
    if c = '+' then (false, r)
    else if c = '-' then (true, r)
    else (false, c :: r)

/-- The signed value of a Rust numeric literal: the decimal value of the
digits after the optional sign, negated when the sign was a minus. -/
def rustIntVal (s : List Char) : Int :=
  if (signSplit s).1 then -(digitsNatVal (signSplit s).2 : Int)
  else (digitsNatVal (signSplit s).2 : Int)

/-- Embedding of Rust `str::parse::<iN>`/`::<uN>` for an `N`-bit integer
type: an optional single sign (unsigned types reject a minus even on zero),
one or more decimal digits, and a range check. -/
def parseIntRust (signed : Bool) (bits : Nat) (s : List Char) : Option Int :=
  if (signSplit s).1 && !signed then none
  else if (signSplit s).2 = [] then none
  else if (signSplit s).2.all Char.isDigit then
    if (if signed then -(2 ^ (bits - 1)) else 0) ≤ rustIntVal s ∧
        rustIntVal s ≤ (if signed then 2 ^ (bits - 1) - 1 else 2 ^ bits - 1)
    then some (rustIntVal s) else none
  else none

/-- Embedding of `str::parse::<i64>`. -/
def parseI64 (s : List Char) : Option Int := parseIntRust true 64 s

/-- Take the longest prefix of decimal digits. -/
def takeDigits : List Char → List Char × List Char
  | c :: cs =>
    if c.isDigit then
      match takeDigits cs with
      | (d, r) => (c :: d, r)
    else ([], c :: cs)
  | [] => ([], [])

/-- The exact rational value `m · 10^e`. -/
def decToRat (m : Int) (e : Int) : ℚ :=
  if 0 ≤ e then (m : ℚ) * (10 : ℚ) ^ e.toNat else (m : ℚ) / (10 : ℚ) ^ (-e).toNat

/-- Embedding of `str::parse::<f64>` on the alphabet the number scan can
produce (no `inf`/`NaN` forms, which the scan cannot emit): optional sign,
digits with an optional dot (at least one digit in the mantissa), optional
exponent with its own optional sign and mandatory digits, and nothing left
over. Returns the exact decimal value as a rational. -/
def parseF64 (s : List Char) : Option ℚ :=
  let neg := (signSplit s).1
  let ipRest := takeDigits (signSplit s).2
  let ip := ipRest.1
  let fpRest : List Char × List Char :=
    match ipRest.2 with
    | '.' :: r => takeDigits r
    | r => ([], r)
  let fp := fpRest.1
  if ip = [] ∧ fp = [] then none
  else
    let m : Int := (if neg then -1 else 1) * (digitsNatVal (ip ++ fp) : Int)
    let e10 : Int := -(fp.length : Int)
    match fpRest.2 with
    | [] => some (decToRat m e10)
    | c :: r =>
      if c = 'e' ∨ c = 'E' then
        let edRest := takeDigits (signSplit r).2
        if edRest.1 = [] then none
        else if edRest.2 = [] then
          let ev : Int :=
            (if (signSplit r).1 then -1 else 1) * (digitsNatVal edRest.1 : Int)
          some (decToRat m (e10 + ev))
        else none
      else none

/-- Embedding of `Tokenizer::number_token`: scan the lexeme, then try the
64-bit integer parse, then the float parse, else fail with the lexeme. -/
def number_token (first : Char) (start : Nat) (rest : List Char) (pos : Nat) :
    (Result Token) × List Char × Nat :=
  match numberScanAux rest pos with
  | (consumed, r, p) =>
    let s := first :: consumed
    match parseI64 s with
    | some num => (.ok (.number (.I64 num) (start, p)), r, p)
    | none =>
      match parseF64 s with
      | some num => (.ok (.number (.F64 num) (start, p)), r, p)
      | none => (.error (.InvalidNumber s), r, p)

/-- Is `c` a hexadecimal digit, as tested by `Tokenizer::hex`
(`ch as u32 <= 0x7F && ch.is_digit(16)`)? -/
def isHexDigitChar (c : Char) : Bool :=
  c.toNat ≤ 0x7F && (c.isDigit || ('a' ≤ c && c ≤ 'f') || ('A' ≤ c && c ≤ 'F'))

/-- Numeric value of one hexadecimal digit character. -/
def hexDigitVal (c : Char) : Nat :=
  if c.isDigit then c.toNat - '0'.toNat
  else if 'a' ≤ c && c ≤ 'f' then c.toNat - 'a'.toNat + 10
  else c.toNat - 'A'.toNat + 10

/-- Value of a list of hexadecimal digit characters, most significant
first (`u32::from_str_radix(&buf, 16)` on the scanned digits). -/
def hexListVal (l : List Char) : Nat :=
  l.foldl (fun a c => a * 16 + hexDigitVal c) 0

/-- Is `n` a Unicode scalar value (`char::from_u32(n).is_some()`)? -/
def isValidCP (n : Nat) : Bool :=
  n < 0xD800 || (0xE000 ≤ n && n < 0x110000)

/-- Digit-collection loop of `Tokenizer::hex`: read `len` hex digits,
failing like the Rust code on a non-digit (consuming it first) or on end of
input. Returns the digits read alongside the remaining input and offset. -/
def hexScan : Nat → List Char → Nat → Nat → (Result (List Char)) × List Char × Nat
  | 0, rest, pos, _ => (.ok [], rest, pos)
  | n + 1, rest, pos, startErr =>
    match rest with
    | [] => (.error (.UnterminatedString startErr), [], pos)
    | c :: cs =>
      if isHexDigitChar c then
        match hexScan n cs (pos + 1) startErr with
        | (.ok buf, r, p) => (.ok (c :: buf), r, p)
        | (.error e, r, p) => (.error e, r, p)
      else (.error (.InvalidHexEscape pos c), cs, pos + 1)

/-- Embedding of `Tokenizer::hex`: scan `len` hex digits, convert, and build
the code point, failing on a value that is no Unicode scalar. Also returns
the digit characters consumed (the model of the input slice they occupy). -/
def hex (len : Nat) (rest : List Char) (pos : Nat) (startEsc iU : Nat) :
    (Result (Char × List Char)) × List Char × Nat :=
  match hexScan len rest pos startEsc with
  | (.ok buf, r, p) =>
    let val := hexListVal buf
    if isValidCP val then (.ok (Char.ofNat val, buf), r, p)
    else (.error (.InvalidEscapeValue iU val), r, p)
  | (.error e, r, p) => (.error e, r, p)

/-- Embedding of `Tokenizer::parse_escape` (`start` is the offset of the
backslash). On success returns the decoded characters pushed to the scratch
buffer together with the raw characters consumed after the backslash. -/
def parse_escape (start : Nat) (rest : List Char) (pos : Nat) :
    (Result (List Char × List Char)) × List Char × Nat :=
  match rest with
  | [] => (.error (.UnterminatedString start), [], pos)
  | c :: cs =>
    if c = dq then (.ok ([dq], [c]), cs, pos + 1)
    else if c = bsl then (.ok ([bsl], [c]), cs, pos + 1)
    else if c = '/' then (.ok (['/'], [c]), cs, pos + 1)
    else if c = 'b' then (.ok (['\x08'], [c]), cs, pos + 1)
    else if c = 'f' then (.ok (['\x0c'], [c]), cs, pos + 1)
    else if c = 'n' then (.ok (['\n'], [c]), cs, pos + 1)
    else if c = 'r' then (.ok (['\x0d'], [c]), cs, pos + 1)
    else if c = 't' then (.ok (['\t'], [c]), cs, pos + 1)
    else if c = 'u' then
      match hex 4 cs (pos + 1) start pos with
      | (.ok (ch, buf), r, p) => (.ok ([ch], c :: buf), r, p)
      | (.error e, r, p) => (.error e, r, p)
    else if c = 'U' then
      match hex 8 cs (pos + 1) start pos with
      | (.ok (ch, buf), r, p) => (.ok ([ch], c :: buf), r, p)
      | (.error e, r, p) => (.error e, r, p)
    else (.error (.InvalidEscape pos c), cs, pos + 1)

/-- Loop of `Tokenizer::string_token`, recursing over the unconsumed input.
`start` is the offset of the opening quote, `scratch` the owned decode
buffer, `escaped` the flag of the same name, and `raw` the characters
consumed since the opening quote — the model of the input slice
`input[start + 1..pos]`, which the Rust code appends to `scratch` anew at
every backslash (`scratch.push_str(&self.input[start + 1..cur])`; the Rust
body also `print!`s a debug string there, which has no effect on the
result). The `fuel` argument only forces structural termination: every
iteration consumes at least one character, so the `rest.length + 1` that
`string_token` supplies can never be exhausted, and the fuel-zero branch is
unreachable. -/
def stringLoop : Nat → Nat → List Char → Nat → List Char → List Char → Bool →
    (Result Token) × List Char × Nat
  | 0, _, rest, pos, _, _, _ => (.error (.UnterminatedString pos), rest, pos)
  | fuel + 1, start, rest, pos, scratch, raw, escaped =>
    match rest with
    | [] => (.error (.UnterminatedString pos), [], pos)
    | c :: cs =>
      if c = bsl then
        match parse_escape pos cs (pos + 1) with
        | (.ok (adds, consumed), r, p) =>
          stringLoop fuel start r p (scratch ++ raw ++ adds) (raw ++ c :: consumed) true
        | (.error e, r, p) => (.error e, r, p)
      else if c = dq then
        if escaped then (.ok (.str (.Escaped scratch) (start, pos + 1)), cs, pos + 1)
        else (.ok (.str (.NotEscaped raw) (start, pos + 1)), cs, pos + 1)
      else
        stringLoop fuel start cs (pos + 1) (if escaped then scratch ++ [c] else scratch)
          (raw ++ [c]) escaped

/-- Embedding of `Tokenizer::string_token` as called from `next`: scratch
starts empty and nothing has been consumed since the opening quote. -/
def string_token (start : Nat) (rest : List Char) (pos : Nat) :
    (Result Token) × List Char × Nat :=
  stringLoop (rest.length + 1) start rest pos [] [] false

/-- Embedding of `Tokenizer::next`: skip whitespace, then classify the next
code point exactly as the Rust `match`. -/
def Tokenizer.next (t : Tokenizer) : Result Token × Tokenizer :=
  let t1 := t.eat_whitespace
  match t1.rest with
  | [] => (.ok .eof, t1)
  | c :: cs =>
    let start := t1.pos
    let p1 := t1.pos + 1
    if c = '[' ∨ c = ']' ∨ c = lcu ∨ c = rcu then
      (.ok (.bracket [c] (start, start + 1)), ⟨cs, p1⟩)
    else if c = ',' ∨ c = ':' then
      (.ok (.operator [c] (start, start + 1)), ⟨cs, p1⟩)
    else if c = 't' then
      match bool_token true start cs p1 with
      | (res, r, p) => (res, ⟨r, p⟩)
    else if c = 'f' then
      match bool_token false start cs p1 with
      | (res, r, p) => (res, ⟨r, p⟩)
    else if c = 'n' then
      match null_token start cs p1 with
      | (res, r, p) => (res, ⟨r, p⟩)
    else if c.isDigit then
      match number_token c start cs p1 with
      | (res, r, p) => (res, ⟨r, p⟩)
    else if c = '-' then
      match number_token c start cs p1 with
      | (res, r, p) => (res, ⟨r, p⟩)
    else if c = dq then
      match string_token start cs p1 with
      | (res, r, p) => (res, ⟨r, p⟩)
    else (.error (.NotSupportedChar c start), ⟨cs, p1⟩)

/-- Embedding of `#[derive(Clone)]` for `Tokenizer` (a field-by-field
duplicate of the scan state). -/
def Tokenizer.clone (t : Tokenizer) : Tokenizer :=
  ⟨t.rest, t.pos⟩

/-- Embedding of `Tokenizer::peek`: run `next` on a clone, discarding the
clone's advanced state. -/
def Tokenizer.peek (t : Tokenizer) : Result Token :=
  (t.clone.next).1

/-- Embedding of `Tokenizer::expect`: consume one token; succeed only on an
`Operator` or `Bracket` whose text equals `s`. -/
def Tokenizer.expect (t : Tokenizer) (s : List Char) : (Result Unit) × Tokenizer :=
  match t.next with
  | (.ok tok, t') =>
    match tok with
    | .operator op _ => if op = s then (.ok (), t') else (.error (.OpNotExist s), t')
    | .bracket b _ => if b = s then (.ok (), t') else (.error (.OpNotExist s), t')
    | _ => (.error (.OpNotExist s), t')
  | (.error e, t') => (.error e, t')

/-- The decimal digit character for `n % 10`. -/
def digitChar (n : Nat) : Char :=
  match n with
  | 0 => '0' | 1 => '1' | 2 => '2' | 3 => '3' | 4 => '4'
  | 5 => '5' | 6 => '6' | 7 => '7' | 8 => '8' | _ => '9'

/-- Decimal digit characters of `n / 10 ^ k`-style recursion with explicit
fuel (a number below `10 ^ fuel` is rendered fully, so the `n + 1` supplied
by `natDecimal` always suffices and the fuel-zero branch is unreachable). -/
def natDecimalAux : Nat → Nat → List Char
  | 0, _ => []
  | fuel + 1, n =>
    if n < 10 then [digitChar n]
    else natDecimalAux fuel (n / 10) ++ [digitChar (n % 10)]

/-- Decimal digit characters of `n`, most significant first (the text
`u64`-style `Display` produces for a nonnegative integer). -/
def natDecimal (n : Nat) : List Char :=
  natDecimalAux (n + 1) n

/-- The canonical decimal text of an integer, as produced by Rust's
`i64::to_string`: optional minus sign, then digits, no plus sign, no
padding. -/
def intDecimal (v : Int) : List Char :=
  if v < 0 then '-' :: natDecimal (-v).toNat else natDecimal v.toNat

/-- The `i64` value of the `v as i64` cast of a `u64` value `v`
(two's-complement reinterpretation). -/
def u64_as_i64 (v : Nat) : Int :=
  if v < 2 ^ 63 then (v : Int) else (v : Int) - 2 ^ 64

/-- Embedding of `Serializer::serialize_bool` (`src/ser.rs`); the output
`String` buffer is a `List Char` and each method appends to it. -/
def serialize_bool (v : Bool) (out : List Char) : List Char :=
  out ++ (if v then ['t', 'r', 'u', 'e'] else ['f', 'a', 'l', 's', 'e'])

/-- Embedding of `Serializer::serialize_i64` (`self.output += &v.to_string()`).
The argument is an `i64`, i.e. an `Int` in `[-2^63, 2^63)`; theorems that use
a wider `Int` state the range explicitly. -/
def serialize_i64 (v : Int) (out : List Char) : List Char :=
  out ++ intDecimal v

/-- Embedding of `Serializer::serialize_u64`: the code narrows with
`self.serialize_i64(v as i64)`. -/
def serialize_u64 (v : Nat) (out : List Char) : List Char :=
  serialize_i64 (u64_as_i64 v) out

/-- Embedding of `Serializer::serialize_str`: quote, the text verbatim (no
escaping of any kind), quote. -/
def serialize_str (v : List Char) (out : List Char) : List Char :=
  out ++ dq :: (v ++ [dq])

/-- Embedding of `Serializer::serialize_unit` (also `serialize_none` and
`serialize_unit_struct`, which delegate to it). -/
def serialize_unit (out : List Char) : List Char :=
  out ++ ['n', 'u', 'l', 'l']

/-- Embedding of `Serializer::serialize_unit_variant`: a bare quoted variant
name. -/
def serialize_unit_variant (name : List Char) (variantIdx : Nat)
    (variant : List Char) (out : List Char) : List Char :=
  serialize_str variant out

/-- Embedding of `Serializer::serialize_newtype_variant`. Transcribed
exactly from the source: it opens a brace, serializes the **enum** name
`name` as a string, writes a colon, then serializes the **variant name**
`variant` as a string; the payload (`value`, modelled by the text its own
serialization would append) is never serialized and no closing brace is
written. -/
def serialize_newtype_variant (name : List Char) (variantIdx : Nat)
    (variant : List Char) (value : List Char → List Char)
    (out : List Char) : List Char :=
  serialize_str variant (serialize_str name (out ++ [lcu]) ++ [':'])

/-- Embedding of `Serializer::serialize_seq` (writes the opener only). -/
def serialize_seq (out : List Char) : List Char :=
  out ++ ['[']

/-- Embedding of `Serializer::serialize_map` (writes the opener only). -/
def serialize_map (out : List Char) : List Char :=
  out ++ [lcu]

/-- Does the buffer end with the single character `c`
(`self.output.ends_with("[")` and the `"\x7b"` analogue)? -/
def endsWith1 (out : List Char) (c : Char) : Bool :=
  out.getLast? = some c

/-- Embedding of `SerializeSeq::serialize_element` for one element whose own
serialization appends `elemSer`: prepend a comma unless the buffer still
ends with the opening `[`. -/
def serialize_element (elemSer : List Char → List Char) (out : List Char) : List Char :=
  elemSer (if endsWith1 out '[' then out else out ++ [','])

/-- Embedding of `SerializeSeq::end`. -/
def serialize_seq_end (out : List Char) : List Char :=
  out ++ [']']

/-- Embedding of `SerializeMap::serialize_key` followed by
`serialize_value` (the struct field path is identical): comma unless the
buffer still ends with the opening brace, then the key as a string, a
colon, then the value. -/
def serialize_entry (k : List Char) (valSer : List Char → List Char)
    (out : List Char) : List Char :=
  valSer (serialize_str k (if endsWith1 out lcu then out else out ++ [',']) ++ [':'])

/-- Embedding of `SerializeMap::end` / `SerializeStruct::end`. -/
def serialize_map_end (out : List Char) : List Char :=
  out ++ [rcu]

/-- A generic JSON value: the data-model shape a binding-agnostic consumer
(`serde_json::Value`-style) reconstructs through the visitor protocol.
Objects are entry lists in pull order. The `float` payload is the exact
rational of the decoded literal (as in `ParseNumber.F64`). -/
inductive JValue where
  | null
  | bool (b : Bool)
  | int (n : Int)
  | float (q : ℚ)
  | str (s : List Char)
  | arr (items : List JValue)
  | obj (entries : List (List Char × JValue))
deriving Repr

mutual

/-- Serialization of a `JValue` against the encoder of `src/ser.rs`,
threading the output buffer exactly as the `Serialize` impl of a generic
value would: `null`→`serialize_unit`, `bool`→`serialize_bool`,
`int`→`serialize_i64`, `str`→`serialize_str`, arrays through
`serialize_seq`/`serialize_element`/`end`, objects through
`serialize_map`/key/value/`end`. A `float` would go through
`serialize_f64`, whose output is Rust's `f64` `Display` text; that
formatting is not modelled, and every theorem below excludes floats, so the
`float` case appends nothing. -/
def encV : JValue → List Char → List Char
  | .null, out => serialize_unit out
  | .bool b, out => serialize_bool b out
  | .int n, out => serialize_i64 n out
  | .float _, out => out
  | .str s, out => serialize_str s out
  | .arr l, out => serialize_seq_end (encItems l (serialize_seq out))
  | .obj l, out => serialize_map_end (encEntries l (serialize_map out))

/-- The element loop of a sequence serialization (`serialize_element` per
element, in order). -/
def encItems : List JValue → List Char → List Char
  | [], out => out
  | v :: vs, out => encItems vs (serialize_element (encV v) out)

/-- The entry loop of a map/struct serialization. -/
def encEntries : List (List Char × JValue) → List Char → List Char
  | [], out => out
  | (k, v) :: es, out => encEntries es (serialize_entry k (encV v) out)

end

/-- Embedding of `ser::to_string` for a generic value: serialize into an
empty buffer. -/
def jsonToString (v : JValue) : List Char :=
  encV v []

/-- Embedding of `MapKey::deserialize_any` (`src/de.rs`) with the string
visitor a generic map key uses: the next token must be a string (either
variant); anything else is the key-must-be-string error. -/
def mapKeyString (d : Tokenizer) : Result (List Char × Tokenizer) :=
  match d.next with
  | (.ok tok, d') =>
    match tok with
    | .str (.Escaped s) _ => .ok (s, d')
    | .str (.NotEscaped s) _ => .ok (s, d')
    | _ => .error .JSONKeyMustBeString
  | (.error e, _) => .error e

/-- The visitor calls a map-key decode can make: an integer visit or a
string visit. -/
inductive KeyVisit where
  | vInt (n : Int)
  | vStr (s : List Char)
deriving DecidableEq, Repr

/-- Embedding of the `deserialize_integer_key!` macro body (`src/de.rs`),
for the integer key type described by `signed`/`bits`: consume the next
token, require a string, parse its text as the integer type; on success
visit the integer, on failure visit the string instead. -/
def deserialize_integer_key (signed : Bool) (bits : Nat) (d : Tokenizer) :
    Result (KeyVisit × Tokenizer) :=
  match d.next with
  | (.ok tok, d') =>
    match tok with
    | .str ms _ =>
      let tmp := ms.content
      match parseIntRust signed bits tmp with
      | some n => .ok (.vInt n, d')
      | none => .ok (.vStr tmp, d')
    | _ => .error .JSONKeyMustBeString
  | (.error e, _) => .error e

mutual

/-- Embedding of `Deserializer::deserialize_any` driven by a generic-value
visitor (the `visit_seq`/`visit_map` loops are `parseSeqElems` and
`parseObjEntries` below, pulled through `SeqAccess`/`MapAccess` exactly as
in `src/de.rs`). `fuel` only forces termination; every theorem supplies
enough of it. -/
def parseValue : Nat → Tokenizer → Result (JValue × Tokenizer)
  | 0, _ => .error (.Message ['f', 'u', 'e', 'l'])
  | fuel + 1, d =>
    match d.next with
    | (.ok tok, d') =>
      match tok with
      | .bool b _ => .ok (.bool b, d')
      | .null _ => .ok (.null, d')
      | .number (.I64 n) _ => .ok (.int n, d')
      | .number (.F64 q) _ => .ok (.float q, d')
      | .str (.Escaped s) _ => .ok (.str s, d')
      | .str (.NotEscaped s) _ => .ok (.str s, d')
      | tok' =>
        if tok'.is_left_bracket then parseSeqElems fuel d' true []
        else if tok'.is_left_curly then parseObjEntries fuel d' true []
        else .error (.InvalidNumber ['a', 'b', 'c'])
    | (.error e, _) => .error e

/-- Embedding of `SeqAccess::next_element_seed` iterated by a
`visit_seq` loop that pushes elements in order: stop and consume on `]`,
require a comma before every element but the first, then decode one
element. -/
def parseSeqElems : Nat → Tokenizer → Bool → List JValue → Result (JValue × Tokenizer)
  | 0, _, _, _ => .error (.Message ['f', 'u', 'e', 'l'])
  | fuel + 1, d, first, acc =>
    match d.peek with
    | .ok tok =>
      if tok.is_right_bracket then .ok (.arr acc.reverse, (d.next).2)
      else
        match (if first then ((.ok () : Result Unit), d) else d.expect [',']) with
        | (.ok _, d1) =>
          match parseValue fuel d1 with
          | .ok (v, d2) => parseSeqElems fuel d2 false (v :: acc)
          | .error e => .error e
        | (.error e, _) => .error e
    | .error e => .error e

/-- Embedding of `MapAccess::next_key_seed`/`next_value_seed` iterated by a
`visit_map` loop that pushes entries in order: stop and consume on the
closing brace, require a comma before every entry but the first, decode the
key through `MapKey`, require a colon, decode the value. -/
def parseObjEntries : Nat → Tokenizer → Bool → List (List Char × JValue) →
    Result (JValue × Tokenizer)
  | 0, _, _, _ => .error (.Message ['f', 'u', 'e', 'l'])
  | fuel + 1, d, first, acc =>
    match d.peek with
    | .ok tok =>
      if tok.is_right_curly then .ok (.obj acc.reverse, (d.next).2)
      else
        match (if first then ((.ok () : Result Unit), d) else d.expect [',']) with
        | (.ok _, d1) =>
          match mapKeyString d1 with
          | .ok (k, d2) =>
            match d2.expect [':'] with
            | (.ok _, d3) =>
              match parseValue fuel d3 with
              | .ok (v, d4) => parseObjEntries fuel d4 false ((k, v) :: acc)
              | .error e => .error e
            | (.error e, _) => .error e
          | .error e => .error e
        | (.error e, _) => .error e
    | .error e => .error e

end

/-- Embedding of `de::from_str` for a generic value: build the tokenizer
(the `Deserializer` owns nothing else) and decode one value; trailing input
is not checked, exactly as in the source. The fuel `input.length + 1`
always suffices because every decode step consumes input. -/
def jsonFromStr (input : List Char) : Result JValue :=
  match parseValue (input.length + 1) (Tokenizer.new input) with
  | .ok (v, _) => .ok v
  | .error e => .error e

mutual

/-- The text `encV v []` produces, computed directly (proved equal to the
buffer-threaded encoder under `Good` below): the reference rendering the
round-trip argument inverts. -/
def encPure : JValue → List Char
  | .null => 'n' :: 'u' :: 'l' :: 'l' :: []
  | .bool true => 't' :: 'r' :: 'u' :: 'e' :: []
  | .bool false => 'f' :: 'a' :: 'l' :: 's' :: 'e' :: []
  | .int n => intDecimal n
  | .float _ => []
  | .str s => dq :: (s ++ [dq])
  | .arr l => '[' :: (encItemsP l true ++ [']'])
  | .obj l => lcu :: (encEntriesP l true ++ [rcu])

/-- The element text of an array body: a comma before every element except
the first, then the element. -/
def encItemsP : List JValue → Bool → List Char
  | [], _ => []
  | v :: vs, first => (if first then [] else [',']) ++ (encPure v ++ encItemsP vs false)

/-- The entry text of an object body: separator, quoted key, colon,
value. -/
def encEntriesP : List (List Char × JValue) → Bool → List Char
  | [], _ => []
  | (k, v) :: es, first =>
    (if first then [] else [',']) ++
      (dq :: (k ++ (dq :: ':' :: (encPure v ++ encEntriesP es false))))

end

/-- The values the amended round-trip claim quantifies over: `null`,
booleans, `i64`-range integers, strings that contain no quote and no
backslash (the encoder does not escape, so those are the strings it can
represent at all), and arrays/objects of such values whose keys are equally
clean. Floats are excluded: `serialize_f64` goes through Rust float
formatting, and the decoder classifies e.g. the rendering of `42.0` back as
an integer. -/
inductive Good : JValue → Prop where
  | null : Good .null
  | bool (b : Bool) : Good (.bool b)
  | int (n : Int) : -(2 ^ 63) ≤ n → n < 2 ^ 63 → Good (.int n)
  | str (s : List Char) : dq ∉ s → bsl ∉ s → Good (.str s)
  | arr (l : List JValue) : (∀ v ∈ l, Good v) → Good (.arr l)
  | obj (l : List (List Char × JValue)) :
      (∀ kv ∈ l, dq ∉ kv.1) → (∀ kv ∈ l, bsl ∉ kv.1) →
      (∀ kv ∈ l, Good kv.2) → Good (.obj l)

/-- A tail of input a freshly encoded value can be followed by: nothing, or
a separator/closer the tokenizer will not absorb into the value. -/
def stopOK : List Char → Prop
  | [] => True
  | c :: _ => c = ',' ∨ c = ']' ∨ c = rcu

/-! ### Helper lemmas: decimal digits and integer rendering -/

/-- The rendered digit character of `k < 10` is a digit and carries `k`. -/
theorem digitChar_spec (k : Nat) (h : k < 10) :
    (digitChar k).isDigit = true ∧ (digitChar k).toNat - '0'.toNat = k := by
  match k, h with
  | 0, _ => exact ⟨by decide, by decide⟩
  | 1, _ => exact ⟨by decide, by decide⟩
  | 2, _ => exact ⟨by decide, by decide⟩
  | 3, _ => exact ⟨by decide, by decide⟩
  | 4, _ => exact ⟨by decide, by decide⟩
  | 5, _ => exact ⟨by decide, by decide⟩
  | 6, _ => exact ⟨by decide, by decide⟩
  | 7, _ => exact ⟨by decide, by decide⟩
  | 8, _ => exact ⟨by decide, by decide⟩
  | 9, _ => exact ⟨by decide, by decide⟩
  | n + 10, h => exact absurd h (by omega)

/-- `natDecimalAux` with positive fuel is never empty. -/
theorem natDecimalAux_ne_nil (fuel n : Nat) (h : 0 < fuel) :
    natDecimalAux fuel n ≠ [] := by
  match fuel, h with
  | f + 1, _ =>
    simp only [natDecimalAux]
    by_cases h10 : n < 10
    · simp [h10]
    · simp [h10]

/-- Every character `natDecimalAux` emits is a decimal digit. -/
theorem natDecimalAux_digits (fuel : Nat) : ∀ (n : Nat), ∀ c ∈ natDecimalAux fuel n,
    c.isDigit = true := by
  induction fuel with
  | zero => intro n c hc; simp [natDecimalAux] at hc
  | succ f ih =>
    intro n c hc
    simp only [natDecimalAux] at hc
    by_cases h10 : n < 10
    · rw [if_pos h10] at hc
      rw [List.mem_singleton] at hc
      subst hc
      exact (digitChar_spec n h10).1
    · rw [if_neg h10] at hc
      rw [List.mem_append] at hc
      cases hc with
      | inl h => exact ih (n / 10) c h
      | inr h =>
        rw [List.mem_singleton] at h
        subst h
        exact (digitChar_spec (n % 10) (Nat.mod_lt _ (by omega))).1

/-- Appending a final digit multiplies the accumulated value by ten. -/
theorem digitsNatVal_append_digit (l : List Char) (d : Char) :
    digitsNatVal (l ++ [d]) = digitsNatVal l * 10 + (d.toNat - '0'.toNat) := by
  simp [digitsNatVal, List.foldl_append]

/-- With enough fuel, the rendered digits of `n` evaluate back to `n`. -/
theorem digitsNatVal_natDecimalAux (fuel : Nat) : ∀ (n : Nat), n < 10 ^ fuel →
    digitsNatVal (natDecimalAux fuel n) = n := by
  induction fuel with
  | zero =>
    intro n h
    have hn : n = 0 := by omega
    subst hn
    simp [natDecimalAux, digitsNatVal]
  | succ f ih =>
    intro n h
    simp only [natDecimalAux]
    by_cases h10 : n < 10
    · rw [if_pos h10]
      have hd := (digitChar_spec n h10).2
      simp only [digitsNatVal, List.foldl_cons, List.foldl_nil, Nat.zero_mul, Nat.zero_add]
      exact hd
    · rw [if_neg h10]
      rw [digitsNatVal_append_digit]
      have hdiv : n / 10 < 10 ^ f := by
        have : 10 ^ (f + 1) = 10 ^ f * 10 := by ring
        omega
      rw [ih (n / 10) hdiv]
      have := (digitChar_spec (n % 10) (Nat.mod_lt _ (by omega))).2
      omega

/-- The digits of `n` are a digit string evaluating to `n`. -/
theorem natDecimal_spec (n : Nat) :
    natDecimal n ≠ [] ∧ (∀ c ∈ natDecimal n, c.isDigit = true) ∧
    digitsNatVal (natDecimal n) = n := by
  refine ⟨natDecimalAux_ne_nil _ _ (by omega), natDecimalAux_digits _ _, ?_⟩
  exact digitsNatVal_natDecimalAux (n + 1) n
    (lt_of_lt_of_le (Nat.lt_two_pow n) (Nat.pow_le_pow_left (by omega) _) |>.trans_le
      (Nat.pow_le_pow_right (by omega) (by omega)))

/-- A decimal digit is not whitespace, starts no other token class, and is
kept by the number scan. -/
theorem digit_head_facts (c : Char) (h : c.isDigit = true) :
    is_whitespace_char c = false ∧ c ≠ '[' ∧ c ≠ ']' ∧ c ≠ lcu ∧ c ≠ rcu ∧
    c ≠ ',' ∧ c ≠ ':' ∧ c ≠ 't' ∧ c ≠ 'f' ∧ c ≠ 'n' ∧ c ≠ '-' ∧ c ≠ dq ∧
    is_digit_char c = true := by
  refine ⟨?_, ?_, ?_, ?_, ?_, ?_, ?_, ?_, ?_, ?_, ?_, ?_, ?_⟩
  · simp only [is_whitespace_char, Bool.or_eq_false_iff, decide_eq_false_iff_not]
    refine ⟨⟨⟨?_, ?_⟩, ?_⟩, ?_⟩ <;> (intro hc; subst hc; exact absurd h (by decide))
  all_goals first
    | (intro hc; subst hc; exact absurd h (by decide))
    | simp [is_digit_char, h]

/-- `eat_whitespace` does nothing when the head is not whitespace (or the
input is empty). -/
theorem eat_whitespace_no_ws (t : Tokenizer)
    (h : ∀ c cs, t.rest = c :: cs → is_whitespace_char c = false) :
    t.eat_whitespace = t := by
  obtain ⟨r, p⟩ := t
  match r with
  | [] => simp [Tokenizer.eat_whitespace, eatWhitespaceAux]
  | c :: cs =>
    have hc := h c cs rfl
    simp [Tokenizer.eat_whitespace, eatWhitespaceAux, hc]

/-- The number scan consumes exactly a leading digit run and stops at a
character it does not recognize. -/
theorem numberScanAux_digits_stop (ds : List Char) (hds : ∀ c ∈ ds, c.isDigit = true)
    (rest : List Char) (p : Nat)
    (hstop : ∀ c cs, rest = c :: cs → is_digit_char c = false) :
    numberScanAux (ds ++ rest) p = (ds, rest, p + ds.length) := by
  induction ds generalizing p with
  | nil =>
    match rest with
    | [] => simp [numberScanAux]
    | c :: cs => simp [numberScanAux, hstop c cs rfl]
  | cons d ds ih =>
    have hd : is_digit_char d = true := by
      simp [is_digit_char, hds d (by simp)]
    simp only [List.cons_append, numberScanAux, hd, if_true, List.append_eq]
    rw [ih (fun c hc => hds c (by simp [hc])) (p + 1)]
    simp only [Prod.mk.injEq, List.length_cons]
    refine ⟨by trivial, by trivial, by omega⟩

/-- Parsing the canonical decimal text of an `i64`-range integer as an
`i64` recovers it. -/
theorem intDecimal_parseI64 (n : Int) (hlo : -(2 ^ 63) ≤ n) (hhi : n < 2 ^ 63) :
    parseI64 (intDecimal n) = some n := by
  by_cases hneg : n < 0
  · obtain ⟨hne, hdig, hval⟩ := natDecimal_spec (-n).toNat
    have hint : intDecimal n = '-' :: natDecimal (-n).toNat := by
      simp [intDecimal, if_pos hneg]
    have hsign : signSplit (intDecimal n) = (true, natDecimal (-n).toNat) := by
      rw [hint]
      simp [signSplit]
    have hs1 : (signSplit (intDecimal n)).1 = true := by rw [hsign]
    have hs2 : (signSplit (intDecimal n)).2 = natDecimal (-n).toNat := by rw [hsign]
    have hall : (natDecimal (-n).toNat).all Char.isDigit = true :=
      List.all_eq_true.2 hdig
    have hvv : rustIntVal (intDecimal n) = n := by
      rw [rustIntVal, hs1, hs2, if_pos rfl, hval]
      omega
    rw [parseI64, parseIntRust, hvv, hs1, hs2]
    simp only [Bool.not_true, Bool.and_false, Bool.false_eq_true, if_false, hall, if_true]
    rw [if_neg hne, if_pos (by constructor <;> omega)]
  · obtain ⟨hne, hdig, hval⟩ := natDecimal_spec n.toNat
    have hint : intDecimal n = natDecimal n.toNat := by
      simp [intDecimal, if_neg hneg]
    rcases hd : natDecimal n.toNat with _ | ⟨c, cs⟩
    · exact absurd hd hne
    have hc : c.isDigit = true := hdig c (by simp [hd])
    have hcp : ¬c = '+' := by intro h; subst h; exact absurd hc (by decide)
    have hcm : ¬c = '-' := by intro h; subst h; exact absurd hc (by decide)
    have hsign : signSplit (intDecimal n) = (false, natDecimal n.toNat) := by
      rw [hint, hd]
      simp [signSplit, hcp, hcm]
    have hs1 : (signSplit (intDecimal n)).1 = false := by rw [hsign]
    have hs2 : (signSplit (intDecimal n)).2 = natDecimal n.toNat := by rw [hsign]
    have hall : (natDecimal n.toNat).all Char.isDigit = true :=
      List.all_eq_true.2 hdig
    have hvv : rustIntVal (intDecimal n) = n := by
      rw [rustIntVal, hs1, hs2, if_neg (by simp), hval]
      omega
    rw [parseI64, parseIntRust, hvv, hs1, hs2]
    simp only [Bool.false_and, Bool.false_eq_true, if_false, hall, if_true]
    rw [if_neg hne, if_pos (by constructor <;> omega)]

/-! ### Helper lemmas: `Tokenizer.next` on each input shape -/

/-- `next` on a `[`. -/
theorem next_cons_lbracket (rest : List Char) (p : Nat) :
    Tokenizer.next ⟨'[' :: rest, p⟩ = (.ok (.bracket ['['] (p, p + 1)), ⟨rest, p + 1⟩) := by
  simp [Tokenizer.next, Tokenizer.eat_whitespace, eatWhitespaceAux, is_whitespace_char]

/-- `next` on a `]`. -/
theorem next_cons_rbracket (rest : List Char) (p : Nat) :
    Tokenizer.next ⟨']' :: rest, p⟩ = (.ok (.bracket [']'] (p, p + 1)), ⟨rest, p + 1⟩) := by
  simp [Tokenizer.next, Tokenizer.eat_whitespace, eatWhitespaceAux, is_whitespace_char]

/-- `next` on an opening brace. -/
theorem next_cons_lcurly (rest : List Char) (p : Nat) :
    Tokenizer.next ⟨lcu :: rest, p⟩ = (.ok (.bracket [lcu] (p, p + 1)), ⟨rest, p + 1⟩) := by
  simp [Tokenizer.next, Tokenizer.eat_whitespace, eatWhitespaceAux, is_whitespace_char, lcu]

/-- `next` on a closing brace. -/
theorem next_cons_rcurly (rest : List Char) (p : Nat) :
    Tokenizer.next ⟨rcu :: rest, p⟩ = (.ok (.bracket [rcu] (p, p + 1)), ⟨rest, p + 1⟩) := by
  simp [Tokenizer.next, Tokenizer.eat_whitespace, eatWhitespaceAux, is_whitespace_char, lcu, rcu]

/-- `next` on a comma. -/
theorem next_cons_comma (rest : List Char) (p : Nat) :
    Tokenizer.next ⟨',' :: rest, p⟩ = (.ok (.operator [','] (p, p + 1)), ⟨rest, p + 1⟩) := by
  simp [Tokenizer.next, Tokenizer.eat_whitespace, eatWhitespaceAux, is_whitespace_char, lcu, rcu]

/-- `next` on a colon. -/
theorem next_cons_colon (rest : List Char) (p : Nat) :
    Tokenizer.next ⟨':' :: rest, p⟩ = (.ok (.operator [':'] (p, p + 1)), ⟨rest, p + 1⟩) := by
  simp [Tokenizer.next, Tokenizer.eat_whitespace, eatWhitespaceAux, is_whitespace_char, lcu, rcu]

/-- `next` on the `null` literal. -/
theorem next_cons_null (rest : List Char) (p : Nat) :
    Tokenizer.next ⟨'n' :: 'u' :: 'l' :: 'l' :: rest, p⟩ =
      (.ok (.null (p, p + 4)), ⟨rest, p + 4⟩) := by
  simp [Tokenizer.next, Tokenizer.eat_whitespace, eatWhitespaceAux, is_whitespace_char,
    null_token, parse_ident, lcu, rcu, dq]

/-- `next` on the `true` literal. -/
theorem next_cons_true (rest : List Char) (p : Nat) :
    Tokenizer.next ⟨'t' :: 'r' :: 'u' :: 'e' :: rest, p⟩ =
      (.ok (.bool true (p, p + 4)), ⟨rest, p + 4⟩) := by
  simp [Tokenizer.next, Tokenizer.eat_whitespace, eatWhitespaceAux, is_whitespace_char,
    bool_token, parse_ident, lcu, rcu, dq]

/-- `next` on the `false` literal. -/
theorem next_cons_false (rest : List Char) (p : Nat) :
    Tokenizer.next ⟨'f' :: 'a' :: 'l' :: 's' :: 'e' :: rest, p⟩ =
      (.ok (.bool false (p, p + 5)), ⟨rest, p + 5⟩) := by
  simp [Tokenizer.next, Tokenizer.eat_whitespace, eatWhitespaceAux, is_whitespace_char,
    bool_token, parse_ident, lcu, rcu, dq]

/-- `next` on a digit or minus dispatches to `number_token`. -/
theorem next_digit_start (c : Char) (cs : List Char) (p : Nat)
    (hc : c.isDigit = true ∨ c = '-') :
    Tokenizer.next ⟨c :: cs, p⟩ =
      ((number_token c p cs (p + 1)).1,
        ⟨(number_token c p cs (p + 1)).2.1, (number_token c p cs (p + 1)).2.2⟩) := by
  cases hc with
  | inr hm =>
    subst hm
    simp [Tokenizer.next, Tokenizer.eat_whitespace, eatWhitespaceAux, is_whitespace_char,
      lcu, rcu, dq]
  | inl hd =>
    obtain ⟨hws, hb1, hb2, hb3, hb4, ho1, ho2, ht, hf, hn, hm, hdq, _⟩ := digit_head_facts c hd
    have hnows : Tokenizer.eat_whitespace ⟨c :: cs, p⟩ = ⟨c :: cs, p⟩ := by
      refine eat_whitespace_no_ws _ ?_
      intro c' cs' h
      injection h with h1 h2
      subst h1
      exact hws
    simp only [Tokenizer.next, hnows]
    rw [if_neg (by simp [hb1, hb2, hb3, hb4]), if_neg (by simp [ho1, ho2]),
      if_neg ht, if_neg hf, if_neg hn, if_pos hd]

/-- `next` on a quote followed by an escape-free literal body returns the
borrowed slice between the quotes. The inner loop lemma first. -/
theorem stringLoop_clean (s : List Char) : ∀ (fuel start pos : Nat)
    (rest scratch raw : List Char), s.length < fuel → dq ∉ s → bsl ∉ s →
    stringLoop fuel start (s ++ dq :: rest) pos scratch raw false =
      (.ok (.str (.NotEscaped (raw ++ s)) (start, pos + s.length + 1)),
        rest, pos + s.length + 1) := by
  induction s with
  | nil =>
    intro fuel start pos rest scratch raw hf hq hb
    match fuel, hf with
    | f + 1, _ => simp [stringLoop, dq, bsl]
  | cons c cs ih =>
    intro fuel start pos rest scratch raw hf hq hb
    match fuel, hf with
    | f + 1, hf =>
      have hcd : ¬c = dq := fun h => hq (by simp [h])
      have hcb : ¬c = bsl := fun h => hb (by simp [h])
      simp only [List.cons_append, stringLoop, if_neg hcb, if_neg hcd]
      rw [ih f start (pos + 1) rest (if false = true then scratch ++ [c] else scratch)
        (raw ++ [c]) (by simp at hf ⊢; omega)
        (fun h => hq (by simp [h])) (fun h => hb (by simp [h]))]
      have h1 : raw ++ [c] ++ cs = raw ++ c :: cs := by simp
      have h2 : pos + 1 + cs.length + 1 = pos + (c :: cs).length + 1 := by
        simp only [List.length_cons]
        omega
      rw [h1, h2]

/-- `next` on an escape-free string literal. -/
theorem next_string_clean (s rest : List Char) (p : Nat)
    (hq : dq ∉ s) (hb : bsl ∉ s) :
    Tokenizer.next ⟨dq :: (s ++ dq :: rest), p⟩ =
      (.ok (.str (.NotEscaped s) (p, p + s.length + 2)), ⟨rest, p + s.length + 2⟩) := by
  have hnows : Tokenizer.eat_whitespace ⟨dq :: (s ++ dq :: rest), p⟩ =
      ⟨dq :: (s ++ dq :: rest), p⟩ := by
    refine eat_whitespace_no_ws _ ?_
    intro c' cs' h
    injection h with h1 h2
    subst h1
    decide
  simp only [Tokenizer.next, hnows]
  rw [if_neg (by decide), if_neg (by decide), if_neg (by decide), if_neg (by decide),
    if_neg (by decide), if_neg (by decide), if_neg (by decide)]
  simp only [if_true]
  rw [string_token, stringLoop_clean s _ p (p + 1) rest [] []
    (by simp only [List.length_append, List.length_cons]; omega) hq hb]
  have h2 : p + 1 + s.length + 1 = p + s.length + 2 := by omega
  rw [h2]
  simp

/-- `next` on the canonical decimal text of an `i64`-range integer followed
by input the number scan does not consume. -/
theorem next_int (n : Int) (rest : List Char) (p : Nat)
    (hlo : -(2 ^ 63) ≤ n) (hhi : n < 2 ^ 63)
    (hstop : ∀ c cs, rest = c :: cs → is_digit_char c = false) :
    Tokenizer.next ⟨intDecimal n ++ rest, p⟩ =
      (.ok (.number (.I64 n) (p, p + (intDecimal n).length)),
        ⟨rest, p + (intDecimal n).length⟩) := by
  by_cases hneg : n < 0
  · have hint : intDecimal n = '-' :: natDecimal (-n).toNat := by
      simp [intDecimal, if_pos hneg]
    obtain ⟨hne, hdig, hval⟩ := natDecimal_spec (-n).toNat
    rw [hint, List.cons_append, next_digit_start '-' _ p (Or.inr rfl)]
    rw [number_token, numberScanAux_digits_stop _ hdig rest (p + 1) hstop]
    have hs : ('-' :: natDecimal (-n).toNat) = intDecimal n := hint.symm
    simp only [hs, intDecimal_parseI64 n hlo hhi]
    have hlen : p + 1 + (natDecimal (-n).toNat).length = p + (intDecimal n).length := by
      rw [hint]
      simp only [List.length_cons]
      omega
    rw [hlen]
  · have hint : intDecimal n = natDecimal n.toNat := by
      simp [intDecimal, if_neg hneg]
    obtain ⟨hne, hdig, hval⟩ := natDecimal_spec n.toNat
    rcases hd : natDecimal n.toNat with _ | ⟨c, cs⟩
    · exact absurd hd hne
    have hc : c.isDigit = true := hdig c (by simp [hd])
    have hcs : ∀ x ∈ cs, x.isDigit = true := fun x hx => hdig x (by simp [hd, hx])
    rw [hint, hd, List.cons_append, next_digit_start c _ p (Or.inl hc)]
    rw [number_token, numberScanAux_digits_stop _ hcs rest (p + 1) hstop]
    have hs : (c :: cs) = intDecimal n := by rw [hint, hd]
    simp only [hs, intDecimal_parseI64 n hlo hhi]
    have hlen : p + 1 + cs.length = p + (intDecimal n).length := by
      rw [hint, hd]
      simp only [List.length_cons]
      omega
    rw [hlen]

/-! ### Helper lemmas: the shape of each token constructor -/

/-- A successful `bool_token` is a `bool` token. -/
theorem bool_token_ok (val : Bool) (start : Nat) (rest : List Char) (pos : Nat)
    (tok : Token) (h : (bool_token val start rest pos).1 = .ok tok) :
    ∃ sp, tok = .bool val sp := by
  rw [bool_token] at h
  rcases hs : parse_ident (if val then ['r', 'u', 'e'] else ['a', 'l', 's', 'e']) rest pos
    with ⟨res, r, p⟩
  rw [hs] at h
  cases res with
  | ok u =>
    simp only [Except.ok.injEq] at h
    exact ⟨(start, p), h.symm⟩
  | error e => simp at h

/-- A successful `null_token` is a `null` token. -/
theorem null_token_ok (start : Nat) (rest : List Char) (pos : Nat)
    (tok : Token) (h : (null_token start rest pos).1 = .ok tok) :
    ∃ sp, tok = .null sp := by
  rw [null_token] at h
  rcases hs : parse_ident ['u', 'l', 'l'] rest pos with ⟨res, r, p⟩
  rw [hs] at h
  cases res with
  | ok u =>
    simp only [Except.ok.injEq] at h
    exact ⟨(start, p), h.symm⟩
  | error e => simp at h

/-- A successful `number_token` is a `number` token. -/
theorem number_token_ok (first : Char) (start : Nat) (rest : List Char) (pos : Nat)
    (tok : Token) (h : (number_token first start rest pos).1 = .ok tok) :
    ∃ pn sp, tok = .number pn sp := by
  rw [number_token] at h
  rcases hs : numberScanAux rest pos with ⟨consumed, r, p⟩
  rw [hs] at h
  dsimp only at h
  cases hI : parseI64 (first :: consumed) with
  | some m =>
    rw [hI] at h
    simp only [Except.ok.injEq] at h
    exact ⟨.I64 m, (start, p), h.symm⟩
  | none =>
    rw [hI] at h
    cases hF : parseF64 (first :: consumed) with
    | some q =>
      rw [hF] at h
      simp only [Except.ok.injEq] at h
      exact ⟨.F64 q, (start, p), h.symm⟩
    | none =>
      rw [hF] at h
      simp at h

/-- A successful `stringLoop` is a string token. -/
theorem stringLoop_ok (fuel : Nat) : ∀ (start : Nat) (rest : List Char) (pos : Nat)
    (scratch raw : List Char) (escaped : Bool) (tok : Token),
    (stringLoop fuel start rest pos scratch raw escaped).1 = .ok tok →
    ∃ ms sp, tok = .str ms sp := by
  induction fuel with
  | zero => intro start rest pos scratch raw escaped tok h; simp [stringLoop] at h
  | succ f ih =>
    intro start rest pos scratch raw escaped tok h
    match rest with
    | [] => simp [stringLoop] at h
    | c :: cs =>
      simp only [stringLoop] at h
      by_cases h1 : c = bsl
      · rw [if_pos h1] at h
        rcases hs : parse_escape pos cs (pos + 1) with ⟨res, r, p⟩
        rw [hs] at h
        cases res with
        | ok v =>
          rcases v with ⟨adds, consumed⟩
          exact ih _ _ _ _ _ _ _ h
        | error e => simp at h
      · rw [if_neg h1] at h
        by_cases h2 : c = dq
        · rw [if_pos h2] at h
          cases escaped with
          | true =>
            simp only [if_true, Except.ok.injEq] at h
            exact ⟨.Escaped scratch, (start, pos + 1), h.symm⟩
          | false =>
            simp only [Bool.false_eq_true, if_false, Except.ok.injEq] at h
            exact ⟨.NotEscaped raw, (start, pos + 1), h.symm⟩
        · rw [if_neg h2] at h
          exact ih _ _ _ _ _ _ _ h

/-- An `Escaped` string can only come out of a scan that met a backslash. -/
theorem stringLoop_escaped_only (fuel : Nat) : ∀ (start : Nat) (rest : List Char)
    (pos : Nat) (scratch raw o : List Char) (sp : Nat × Nat) (r : List Char) (p : Nat),
    stringLoop fuel start rest pos scratch raw false = (.ok (.str (.Escaped o) sp), r, p) →
    bsl ∈ rest := by
  induction fuel with
  | zero => intro start rest pos scratch raw o sp r p h; simp [stringLoop] at h
  | succ f ih =>
    intro start rest pos scratch raw o sp r p h
    match rest with
    | [] => simp [stringLoop] at h
    | c :: cs =>
      simp only [stringLoop] at h
      by_cases h1 : c = bsl
      · rw [h1]
        exact List.mem_cons_self _ _
      · rw [if_neg h1] at h
        by_cases h2 : c = dq
        · rw [if_pos h2] at h
          simp at h
        · rw [if_neg h2] at h
          exact List.mem_cons_of_mem _ (ih _ _ _ _ _ _ _ _ _ h)

/-- Whatever survives `eat_whitespace` was part of the input. -/
theorem eatWhitespaceAux_mem (l : List Char) : ∀ (p : Nat) (x : Char),
    x ∈ (eatWhitespaceAux l p).1 → x ∈ l := by
  induction l with
  | nil => intro p x hx; simp [eatWhitespaceAux] at hx
  | cons c cs ih =>
    intro p x hx
    simp only [eatWhitespaceAux] at hx
    by_cases hw : is_whitespace_char c
    · rw [if_pos hw] at hx
      exact List.mem_cons_of_mem _ (ih (p + 1) x hx)
    · rw [if_neg hw] at hx
      exact hx

/-- Case analysis of a successful `next`: either the stripped input was
empty and the token is `eof` with the state parked there, or the stripped
input was nonempty, the token is not `eof`, and an `Escaped` string token
forces a backslash in the stripped input. -/
theorem next_ok_char (t : Tokenizer) (tok : Token) (t' : Tokenizer)
    (h : t.next = (.ok tok, t')) :
    ((t.eat_whitespace).rest = [] ∧ tok = .eof ∧ t' = t.eat_whitespace) ∨
    ((t.eat_whitespace).rest ≠ [] ∧ tok ≠ .eof ∧
      (∀ o sp, tok = .str (.Escaped o) sp → bsl ∈ (t.eat_whitespace).rest)) := by
  rcases hw : t.eat_whitespace with ⟨r, q⟩
  simp only [Tokenizer.next, hw] at h
  match r with
  | [] =>
    left
    simp only [Prod.mk.injEq, Except.ok.injEq] at h
    exact ⟨rfl, h.1.symm, h.2.symm⟩
  | c :: cs =>
    right
    refine ⟨by simp, ?_, ?_⟩
    all_goals
      dsimp only at h
      by_cases hb : c = '[' ∨ c = ']' ∨ c = lcu ∨ c = rcu
      case pos =>
        rw [if_pos hb] at h
        simp only [Prod.mk.injEq, Except.ok.injEq] at h
        first
          | (rw [← h.1]; simp)
          | (intro o sp hsp; rw [← h.1] at hsp; simp at hsp)
      case neg =>
      rw [if_neg hb] at h
      by_cases ho : c = ',' ∨ c = ':'
      case pos =>
        rw [if_pos ho] at h
        simp only [Prod.mk.injEq, Except.ok.injEq] at h
        first
          | (rw [← h.1]; simp)
          | (intro o sp hsp; rw [← h.1] at hsp; simp at hsp)
      case neg =>
      rw [if_neg ho] at h
      by_cases ht : c = 't'
      case pos =>
        rw [if_pos ht] at h
        rcases hbt : bool_token true q cs (q + 1) with ⟨res, rr, pp⟩
        rw [hbt] at h
        simp only [Prod.mk.injEq] at h
        have hres : (bool_token true q cs (q + 1)).1 = .ok tok := by
          rw [hbt]; exact h.1
        obtain ⟨sp, hsp⟩ := bool_token_ok _ _ _ _ _ hres
        first
          | (rw [hsp]; simp)
          | (intro o sp2 hsp2; rw [hsp] at hsp2; simp at hsp2)
      case neg =>
      rw [if_neg ht] at h
      by_cases hf : c = 'f'
      case pos =>
        rw [if_pos hf] at h
        rcases hbt : bool_token false q cs (q + 1) with ⟨res, rr, pp⟩
        rw [hbt] at h
        simp only [Prod.mk.injEq] at h
        have hres : (bool_token false q cs (q + 1)).1 = .ok tok := by
          rw [hbt]; exact h.1
        obtain ⟨sp, hsp⟩ := bool_token_ok _ _ _ _ _ hres
        first
          | (rw [hsp]; simp)
          | (intro o sp2 hsp2; rw [hsp] at hsp2; simp at hsp2)
      case neg =>
      rw [if_neg hf] at h
      by_cases hn : c = 'n'
      case pos =>
        rw [if_pos hn] at h
        rcases hbt : null_token q cs (q + 1) with ⟨res, rr, pp⟩
        rw [hbt] at h
        simp only [Prod.mk.injEq] at h
        have hres : (null_token q cs (q + 1)).1 = .ok tok := by
          rw [hbt]; exact h.1
        obtain ⟨sp, hsp⟩ := null_token_ok _ _ _ _ hres
        first
          | (rw [hsp]; simp)
          | (intro o sp2 hsp2; rw [hsp] at hsp2; simp at hsp2)
      case neg =>
      rw [if_neg hn] at h
      by_cases hdg : c.isDigit = true
      case pos =>
        rw [if_pos hdg] at h
        rcases hbt : number_token c q cs (q + 1) with ⟨res, rr, pp⟩
        rw [hbt] at h
        simp only [Prod.mk.injEq] at h
        have hres : (number_token c q cs (q + 1)).1 = .ok tok := by
          rw [hbt]; exact h.1
        obtain ⟨pn, sp, hsp⟩ := number_token_ok _ _ _ _ _ hres
        first
          | (rw [hsp]; simp)
          | (intro o sp2 hsp2; rw [hsp] at hsp2; simp at hsp2)
      case neg =>
      rw [if_neg hdg] at h
      by_cases hm : c = '-'
      case pos =>
        rw [if_pos hm] at h
        rcases hbt : number_token c q cs (q + 1) with ⟨res, rr, pp⟩
        rw [hbt] at h
        simp only [Prod.mk.injEq] at h
        have hres : (number_token c q cs (q + 1)).1 = .ok tok := by
          rw [hbt]; exact h.1
        obtain ⟨pn, sp, hsp⟩ := number_token_ok _ _ _ _ _ hres
        first
          | (rw [hsp]; simp)
          | (intro o sp2 hsp2; rw [hsp] at hsp2; simp at hsp2)
      case neg =>
      rw [if_neg hm] at h
      by_cases hq : c = dq
      case pos =>
        rw [if_pos hq] at h
        rcases hbt : string_token q cs (q + 1) with ⟨res, rr, pp⟩
        rw [hbt] at h
        simp only [Prod.mk.injEq] at h
        have hres : (string_token q cs (q + 1)).1 = .ok tok := by
          rw [hbt]; exact h.1
        obtain ⟨ms, sp, hsp⟩ := stringLoop_ok _ _ _ _ _ _ _ _ hres
        first
          | (rw [hsp]; simp; done)
          | (intro o sp2 hsp2
             subst hsp
             injection hsp2 with hms hsp3
             subst hms
             have hst : string_token q cs (q + 1) = (.ok (.str (.Escaped o) sp), rr, pp) := by
               rw [hbt, h.1]
             have hb2 : stringLoop (cs.length + 1) q cs (q + 1) [] [] false =
                 (.ok (.str (.Escaped o) sp), rr, pp) := by
               simpa [string_token] using hst
             exact List.mem_cons_of_mem _
               (stringLoop_escaped_only _ _ _ _ _ _ _ _ _ _ hb2))
      case neg =>
      rw [if_neg hq] at h
      simp at h

/-- C10 helperless corollary shape: an `eof`-returning `next` leaves an
empty cursor. -/
theorem next_eof_state (t t' : Tokenizer) (h : t.next = (.ok .eof, t')) :
    t' = t.eat_whitespace ∧ (t.eat_whitespace).rest = [] := by
  rcases next_ok_char t .eof t' h with ⟨hnil, _, ht'⟩ | ⟨_, hne, _⟩
  · exact ⟨ht', hnil⟩
  · exact absurd rfl hne

/-- `str::parse` of the single letter `x` fails as every integer type. -/
theorem parseIntRust_x (signed : Bool) (bits : Nat) :
    parseIntRust signed bits ['x'] = none := by
  have hs : signSplit ['x'] = (false, ['x']) := by
    simp [signSplit]
  have hs1 : (signSplit ['x']).1 = false := by rw [hs]
  have hs2 : (signSplit ['x']).2 = ['x'] := by rw [hs]
  rw [parseIntRust, hs1, hs2]
  simp

/-! ### Claim theorems -/

/-- C2: the spec says decoding the 14-character literal
`"A\n\t\""` yields the 4-character string `A`, LF, TAB, `"`, with no
text duplicated. The code does not: `string_token` re-copies
`input[start+1..cur]` into the scratch buffer at **every** backslash, so
the produced owned string is the 28-character buffer computed here, which
duplicates earlier text (including raw escape sequences). This evaluates
the embedded tokenizer at the failing input and shows the output differs
from the spec's required string. -/
theorem C2_escape_decode_bug :
    (Tokenizer.new "\x22\x5cu0041\x5cn\x5ct\x5c\x22\x22".toList).next =
      (.ok (.str (.Escaped ("A\x5cu0041\n\x5cu0041\x5cn\t\x5cu0041\x5cn\x5ct\x22".toList))
        (0, 14)), ⟨[], 14⟩) ∧
    "A\x5cu0041\n\x5cu0041\x5cn\t\x5cu0041\x5cn\x5ct\x22".toList ≠ "A\n\t\x22".toList := by
  exact ⟨rfl, by decide⟩

/-- C3: the spec says a newtype variant `Test` with payload `{"age":1}`
encodes to `{"Test":{"age":1}}`. The code's `serialize_newtype_variant`
instead writes the **enum** name as the key and the **variant name** as the
value, drops the payload entirely, and never writes the closing brace: for
an enum named `E` it produces `{"E":"Test"`. This evaluates the embedded
encoder at that failing input. -/
theorem C3_newtype_variant_encode_bug :
    serialize_newtype_variant "E".toList 0 "Test".toList
        (fun o => o ++ "\x7b\x22age\x22:1\x7d".toList) [] =
      "\x7b\x22E\x22:\x22Test\x22".toList ∧
    "\x7b\x22E\x22:\x22Test\x22".toList ≠ "\x7b\x22Test\x22:\x7b\x22age\x22:1\x7d\x7d".toList := by
  exact ⟨rfl, by decide⟩

/-- C9: the spec says every integer encodes to its canonical decimal text;
in particular `u64` values above `i64::MAX` would keep their own decimal
value. The code's `serialize_u64` narrows with `v as i64`, so `2^63` is
rendered as the wrapped negative number and `2^63 - 1` (still in range) is
rendered canonically. This evaluates the embedded encoder at the failing
input. -/
theorem C9_u64_wrap_bug :
    serialize_u64 (2 ^ 63) [] = "-9223372036854775808".toList ∧
    serialize_u64 (2 ^ 63 - 1) [] = "9223372036854775807".toList ∧
    "-9223372036854775808".toList ≠ "9223372036854775808".toList := by
  exact ⟨rfl, rfl, by decide⟩

/-- C7: decoding the object text `{"a":1,}` (trailing comma before the
closing brace) with the generic value binding returns the
key-must-be-string error — the map loop consumes the comma, then the
key sub-decoder meets the closing brace, which is not a string token. -/
theorem C7_trailing_comma_rejected :
    jsonFromStr "\x7b\x22a\x22:1,\x7d".toList = .error .JSONKeyMustBeString := rfl

/-- C8: `peek` (implemented as `self.clone().next()`) returns exactly the
token/error that the immediately following `next` returns, and the clone it
scans from duplicates the full tokenizer state, so the original cursor is
untouched; hence any number of peeks followed by a `next` behaves as a
single `next`. -/
theorem C8_peek_is_next (t : Tokenizer) :
    t.peek = (t.next).1 ∧ t.clone = t :=
  ⟨rfl, rfl⟩

/-- C8 witness: the property at a concrete tokenizer state. -/
theorem C8_peek_is_next_witness :
    (Tokenizer.new "[1]".toList).peek = ((Tokenizer.new "[1]".toList).next).1 ∧
    (Tokenizer.new "[1]".toList).clone = Tokenizer.new "[1]".toList :=
  C8_peek_is_next (Tokenizer.new "[1]".toList)

/-- C10: end of input is absorbing: once `next` returns the `EOF` token,
the state it leaves behind returns `EOF` again (same token, same state), so
every later call also returns `EOF`. -/
theorem C10_eof_absorbing (t t' : Tokenizer) (h : t.next = (.ok .eof, t')) :
    t'.next = (.ok .eof, t') := by
  obtain ⟨ht', hnil⟩ := next_eof_state t t' h
  have hr : t'.rest = [] := by rw [ht']; exact hnil
  rcases t' with ⟨r, q⟩
  have hr2 : r = [] := hr
  subst hr2
  rfl

/-- C10 witness: probing past the end of a concrete exhausted stream. -/
theorem C10_eof_absorbing_witness :
    (Tokenizer.new "1 ".toList).next.2.next.2.next = (.ok .eof, ⟨[], 2⟩) := by
  exact C10_eof_absorbing (Tokenizer.new "1 ".toList).next.2 ⟨[], 2⟩ rfl

/-- C5: tokenizing a string literal with no backslash in its body returns
the borrowed `NotEscaped` variant whose content is exactly the input
between the quotes, unchanged; and an owned `Escaped` buffer is only ever
returned when the input being scanned contains a backslash. -/
theorem C5_zero_copy :
    (∀ (s rest : List Char) (p : Nat), dq ∉ s → bsl ∉ s →
      Tokenizer.next ⟨dq :: (s ++ dq :: rest), p⟩ =
        (.ok (.str (.NotEscaped s) (p, p + s.length + 2)), ⟨rest, p + s.length + 2⟩)) ∧
    (∀ (t t' : Tokenizer) (o : List Char) (sp : Nat × Nat),
      t.next = (.ok (.str (.Escaped o) sp), t') → bsl ∈ t.rest) := by
  constructor
  · intro s rest p hq hb
    exact next_string_clean s rest p hq hb
  · intro t t' o sp h
    rcases next_ok_char t _ t' h with ⟨_, habs, _⟩ | ⟨_, _, hesc⟩
    · exact absurd habs (by simp)
    · have hm := hesc o sp rfl
      have : bsl ∈ (eatWhitespaceAux t.rest t.pos).1 := hm
      exact eatWhitespaceAux_mem t.rest t.pos bsl this

/-- C5 witness: the borrowed slice on a concrete escape-free literal. -/
theorem C5_zero_copy_witness :
    Tokenizer.next ⟨"\x22ab\x22]".toList, 7⟩ =
      (.ok (.str (.NotEscaped "ab".toList) (7, 11)), ⟨[']'], 11⟩) := by
  have h := (C5_zero_copy).1 "ab".toList [']'] 7 (by decide) (by decide)
  exact h

/-- C6: every integer-typed map-key decode (any signedness and width)
consumes the next token; a string token is parsed as that integer type,
visiting the integer on success and falling back to visiting the original
string text on failure (in particular the key `"x"` always falls back to
the string `x`), while a non-string token yields the key-must-be-string
error. -/
theorem C6_integer_key_fallback :
    (∀ (signed : Bool) (bits : Nat) (d d₂ : Tokenizer) (ms : MaybeString) (sp : Nat × Nat),
      d.next = (.ok (.str ms sp), d₂) →
      deserialize_integer_key signed bits d =
        (match parseIntRust signed bits ms.content with
         | some n => .ok (.vInt n, d₂)
         | none => .ok (.vStr ms.content, d₂))) ∧
    (∀ (signed : Bool) (bits : Nat) (d d₂ : Tokenizer) (tok : Token),
      d.next = (.ok tok, d₂) → (∀ ms sp, tok ≠ .str ms sp) →
      deserialize_integer_key signed bits d = .error .JSONKeyMustBeString) ∧
    (∀ (signed : Bool) (bits : Nat) (p : Nat) (rest : List Char),
      deserialize_integer_key signed bits ⟨dq :: 'x' :: dq :: rest, p⟩ =
        .ok (.vStr ['x'], ⟨rest, p + 3⟩)) := by
  refine ⟨?_, ?_, ?_⟩
  · intro signed bits d d₂ ms sp h
    rw [deserialize_integer_key, h]
  · intro signed bits d d₂ tok h hne
    rw [deserialize_integer_key, h]
    cases tok with
    | str ms sp => exact absurd rfl (hne ms sp)
    | operator s sp => rfl
    | bracket s sp => rfl
    | null sp => rfl
    | bool b sp => rfl
    | number n sp => rfl
    | eof => rfl
  · intro signed bits p rest
    have hn : (Tokenizer.mk (dq :: 'x' :: dq :: rest) p).next =
        (.ok (.str (.NotEscaped ['x']) (p, p + 3)), ⟨rest, p + 3⟩) :=
      next_string_clean ['x'] rest p (by decide) (by decide)
    rw [deserialize_integer_key, hn]
    dsimp only [MaybeString.content]
    rw [parseIntRust_x]

/-- C6 witness: the fallback at the concrete entry key `"x"` for a
concrete width (signed 64-bit), plus the non-string error at a concrete
brace token. -/
theorem C6_integer_key_fallback_witness :
    deserialize_integer_key true 64 ⟨dq :: 'x' :: dq :: [':'], 0⟩ =
      .ok (.vStr ['x'], ⟨[':'], 3⟩) ∧
    deserialize_integer_key true 64 ⟨[lcu], 0⟩ = .error .JSONKeyMustBeString := by
  constructor
  · exact C6_integer_key_fallback.2.2 true 64 0 [':']
  · exact C6_integer_key_fallback.2.1 true 64 ⟨[lcu], 0⟩ ⟨[], 1⟩
      (.bracket [lcu] (0, 1)) rfl (by intro ms sp h; simp at h)

/-- C4: tokenizing `42` yields the integer token `42`; `42.0` and `4.2e1`
both yield the floating token `42.0`; `-0` yields the integer token `0`;
and for every scanned numeric lexeme the 64-bit integer parse is attempted
first, the double float parse second, and if both fail the tokenizer
returns the invalid-number error carrying the lexeme text. -/
theorem C4_number_classification :
    (Tokenizer.new "42".toList).next = (.ok (.number (.I64 42) (0, 2)), ⟨[], 2⟩) ∧
    (Tokenizer.new "42.0".toList).next = (.ok (.number (.F64 42) (0, 4)), ⟨[], 4⟩) ∧
    (Tokenizer.new "4.2e1".toList).next = (.ok (.number (.F64 42) (0, 5)), ⟨[], 5⟩) ∧
    (Tokenizer.new "-0".toList).next = (.ok (.number (.I64 0) (0, 2)), ⟨[], 2⟩) ∧
    (∀ (first : Char) (start : Nat) (rest : List Char) (pos : Nat) (n : Int),
      parseI64 (first :: (numberScanAux rest pos).1) = some n →
      (number_token first start rest pos).1 =
        .ok (.number (.I64 n) (start, (numberScanAux rest pos).2.2))) ∧
    (∀ (first : Char) (start : Nat) (rest : List Char) (pos : Nat) (q : ℚ),
      parseI64 (first :: (numberScanAux rest pos).1) = none →
      parseF64 (first :: (numberScanAux rest pos).1) = some q →
      (number_token first start rest pos).1 =
        .ok (.number (.F64 q) (start, (numberScanAux rest pos).2.2))) ∧
    (∀ (first : Char) (start : Nat) (rest : List Char) (pos : Nat),
      parseI64 (first :: (numberScanAux rest pos).1) = none →
      parseF64 (first :: (numberScanAux rest pos).1) = none →
      (number_token first start rest pos).1 =
        .error (.InvalidNumber (first :: (numberScanAux rest pos).1))) := by
  have hq1 : decToRat 420 (-1) = (42 : ℚ) := by
    rw [decToRat]
    norm_num
  have hq2 : decToRat 42 0 = (42 : ℚ) := by
    rw [decToRat]
    norm_num
  have hb1 : (Tokenizer.new "42.0".toList).next =
      (.ok (.number (.F64 (decToRat 420 (-1))) (0, 4)), ⟨[], 4⟩) := rfl
  have hb2 : (Tokenizer.new "4.2e1".toList).next =
      (.ok (.number (.F64 (decToRat 42 0)) (0, 5)), ⟨[], 5⟩) := rfl
  refine ⟨rfl, by rw [hb1, hq1], by rw [hb2, hq2], rfl, ?_, ?_, ?_⟩
  · intro first start rest pos n hI
    rw [number_token]
    rcases hs : numberScanAux rest pos with ⟨consumed, r, p⟩
    rw [hs] at hI
    dsimp only at hI ⊢
    rw [hI]
  · intro first start rest pos q hI hF
    rw [number_token]
    rcases hs : numberScanAux rest pos with ⟨consumed, r, p⟩
    rw [hs] at hI hF
    dsimp only at hI hF ⊢
    rw [hI, hF]
  · intro first start rest pos hI hF
    rw [number_token]
    rcases hs : numberScanAux rest pos with ⟨consumed, r, p⟩
    rw [hs] at hI hF
    dsimp only at hI hF ⊢
    rw [hI, hF]

/-- C4 witness: the fallthrough order at concrete lexemes — `1-2` (scanned
whole, rejected by both parses) produces the invalid-number error carrying
the lexeme, and `9.5` falls through the integer parse to the float parse. -/
theorem C4_number_classification_witness :
    (number_token '1' 0 "-2".toList 1).1 = .error (.InvalidNumber "1-2".toList) ∧
    (number_token '9' 0 ".5".toList 1).1 = .ok (.number (.F64 (19 / 2)) (0, 3)) := by
  constructor
  · exact C4_number_classification.2.2.2.2.2.2 '1' 0 "-2".toList 1 (by decide) (by decide)
  · refine C4_number_classification.2.2.2.2.2.1 '9' 0 ".5".toList 1 (19 / 2)
      (by decide) ?_
    have h1 : parseF64 ('9' :: (numberScanAux ".5".toList 1).1) =
        some (decToRat 95 (-1)) := rfl
    rw [h1]
    simp only [Option.some.injEq]
    rw [decToRat]
    norm_num

/-- C1, counterexample: round-trip fails on a supported value — the string
consisting of one double-quote character. The encoder performs no escaping,
so the value encodes to three quote characters, which decode back as the
empty string. -/
theorem C1_roundtrip_counterexample :
    jsonToString (JValue.str [dq]) = [dq, dq, dq] ∧
    jsonFromStr (jsonToString (JValue.str [dq])) = .ok (JValue.str []) ∧
    JValue.str [] ≠ JValue.str [dq] := by
  refine ⟨rfl, rfl, ?_⟩
  intro h
  injection h with h1
  simp at h1

/-! ### Helper lemmas: the shape of freshly encoded text -/

/-- A decimal rendering is nonempty and ends in a digit. -/
theorem intDecimal_last (n : Int) :
    intDecimal n ≠ [] ∧ ∀ c, (intDecimal n).getLast? = some c → c.isDigit = true := by
  by_cases hneg : n < 0
  · obtain ⟨hne, hdig, _⟩ := natDecimal_spec (-n).toNat
    rw [intDecimal, if_pos hneg]
    refine ⟨by simp, ?_⟩
    intro c hc
    have heq : ('-' :: natDecimal (-n).toNat).getLast? = (natDecimal (-n).toNat).getLast? := by
      have h : (['-'] ++ natDecimal (-n).toNat).getLast? = (natDecimal (-n).toNat).getLast? :=
        List.getLast?_append_of_ne_nil ['-'] hne
      simpa using h
    rw [heq] at hc
    obtain ⟨h1, h2⟩ := List.mem_getLast?_eq_getLast ((Option.mem_def).2 hc)
    exact h2 ▸ hdig _ (List.getLast_mem h1)
  · obtain ⟨hne, hdig, _⟩ := natDecimal_spec n.toNat
    rw [intDecimal, if_neg hneg]
    refine ⟨hne, ?_⟩
    intro c hc
    obtain ⟨h1, h2⟩ := List.mem_getLast?_eq_getLast ((Option.mem_def).2 hc)
    exact h2 ▸ hdig _ (List.getLast_mem h1)

/-- The first character of a decimal rendering is a digit or the minus
sign. -/
theorem intDecimal_head (n : Int) :
    ∀ c cs, intDecimal n = c :: cs → (c.isDigit = true ∨ c = '-') := by
  intro c cs hc
  by_cases hneg : n < 0
  · rw [intDecimal, if_pos hneg] at hc
    injection hc with h1 h2
    exact Or.inr h1.symm
  · obtain ⟨hne, hdig, _⟩ := natDecimal_spec n.toNat
    rw [intDecimal, if_neg hneg] at hc
    exact Or.inl (hdig c (by simp [hc]))

/-- Every `Good` value encodes to nonempty text that does not start with a
byte-order mark and does not end in an opener character. -/
theorem encPure_shape (v : JValue) (hG : Good v) :
    encPure v ≠ [] ∧
    (∀ c cs, encPure v = c :: cs → c ≠ '\uFEFF') ∧
    (∀ c, (encPure v).getLast? = some c → (c ≠ '[' ∧ c ≠ lcu)) := by
  cases hG with
  | null =>
    refine ⟨by simp [encPure], ?_, ?_⟩
    · intro c cs hc
      rw [encPure] at hc
      injection hc with h1 h2
      subst h1
      decide
    · intro c hc
      rw [encPure] at hc
      simp at hc
      subst hc
      decide
  | bool b =>
    cases b
    · refine ⟨by simp [encPure], ?_, ?_⟩
      · intro c cs hc
        rw [encPure] at hc
        injection hc with h1 h2
        subst h1
        decide
      · intro c hc
        rw [encPure] at hc
        simp at hc
        subst hc
        decide
    · refine ⟨by simp [encPure], ?_, ?_⟩
      · intro c cs hc
        rw [encPure] at hc
        injection hc with h1 h2
        subst h1
        decide
      · intro c hc
        rw [encPure] at hc
        simp at hc
        subst hc
        decide
  | int n hlo hhi =>
    obtain ⟨hne, hlast⟩ := intDecimal_last n
    refine ⟨by simpa [encPure] using hne, ?_, ?_⟩
    · intro c cs hc
      rw [encPure] at hc
      rcases intDecimal_head n c cs hc with hd | hd
      · intro hbom
        subst hbom
        exact absurd hd (by decide)
      · subst hd
        decide
    · intro c hc
      rw [encPure] at hc
      have hd := hlast c hc
      constructor <;> (intro he; subst he; exact absurd hd (by decide))
  | str s hq hb =>
    refine ⟨by simp [encPure], ?_, ?_⟩
    · intro c cs hc
      rw [encPure] at hc
      injection hc with h1 h2
      subst h1
      decide
    · intro c hc
      rw [encPure] at hc
      have : (dq :: (s ++ [dq])).getLast? = some dq := by
        have h : ((dq :: s) ++ [dq]).getLast? = some dq := List.getLast?_concat _
        simpa using h
      rw [this] at hc
      injection hc with h1
      subst h1
      decide
  | arr l hl =>
    refine ⟨by simp [encPure], ?_, ?_⟩
    · intro c cs hc
      rw [encPure] at hc
      injection hc with h1 h2
      subst h1
      decide
    · intro c hc
      rw [encPure] at hc
      have : ('[' :: (encItemsP l true ++ [']'])).getLast? = some ']' := by
        have h : (('[' :: encItemsP l true) ++ [']']).getLast? = some ']' :=
          List.getLast?_concat _
        simpa using h
      rw [this] at hc
      injection hc with h1
      subst h1
      decide
  | obj l hq hb hg =>
    refine ⟨by simp [encPure], ?_, ?_⟩
    · intro c cs hc
      rw [encPure] at hc
      injection hc with h1 h2
      subst h1
      decide
    · intro c hc
      rw [encPure] at hc
      have : (lcu :: (encEntriesP l true ++ [rcu])).getLast? = some rcu := by
        have h : ((lcu :: encEntriesP l true) ++ [rcu]).getLast? = some rcu :=
          List.getLast?_concat _
        simpa using h
      rw [this] at hc
      injection hc with h1
      subst h1
      decide

/-- After appending encoded text the buffer cannot end with an opener. -/
theorem endsWith1_after_value (v : JValue) (hG : Good v) (out : List Char) :
    endsWith1 (out ++ encPure v) '[' = false ∧ endsWith1 (out ++ encPure v) lcu = false := by
  obtain ⟨hne, _, hlast⟩ := encPure_shape v hG
  rcases hl : (encPure v).getLast? with _ | c
  · rcases hev : encPure v with _ | ⟨a, l⟩
    · exact absurd hev hne
    · rw [hev] at hl
      simp at hl
  · obtain ⟨h1, h2⟩ := hlast c hl
    have hga : (out ++ encPure v).getLast? = some c := by
      rw [List.getLast?_append_of_ne_nil out hne, hl]
    constructor <;> simp [endsWith1, hga, h1, h2]

/-- A buffer ending in a freshly appended character ends with it. -/
theorem endsWith1_concat (out : List Char) (c : Char) :
    endsWith1 (out ++ [c]) c = true := by
  simp [endsWith1, List.getLast?_concat]

/-- `Tokenizer::new` is the identity state when the input does not start
with a byte-order mark. -/
theorem new_no_bom (l : List Char) (h : ∀ c cs, l = c :: cs → c ≠ '\uFEFF') :
    Tokenizer.new l = ⟨l, 0⟩ := by
  match l with
  | [] => rfl
  | c :: cs =>
    have hc := h c cs rfl
    simp [Tokenizer.new, Tokenizer.eatc, hc]

/-! ### Helper lemmas: the buffer-threaded encoder appends the pure text -/

mutual

/-- The buffer-tail comma trick never misfires on `Good` values: encoding
appends exactly the pure rendering. -/
theorem encV_hom : ∀ (v : JValue), Good v → ∀ (out : List Char),
    encV v out = out ++ encPure v
  | .null, _, out => by simp [encV, encPure, serialize_unit]
  | .bool b, _, out => by cases b <;> simp [encV, encPure, serialize_bool]
  | .int n, _, out => by simp [encV, encPure, serialize_i64]
  | .float q, hG, out => by cases hG
  | .str s, _, out => by simp [encV, encPure, serialize_str]
  | .arr l, hG, out => by
    cases hG with
    | arr _ hl =>
      rw [encV, serialize_seq,
        encItems_hom l hl (out ++ ['[']) true (endsWith1_concat out '['),
        serialize_seq_end, encPure]
      simp
  | .obj l, hG, out => by
    cases hG with
    | obj _ hq hb hg =>
      rw [encV, serialize_map,
        encEntries_hom l hq hb hg (out ++ [lcu]) true (endsWith1_concat out lcu),
        serialize_map_end, encPure]
      simp
termination_by v => sizeOf v

/-- The element loop appends the pure element text, with the comma decision
tracking whether the buffer still ends in the opening bracket. -/
theorem encItems_hom : ∀ (l : List JValue), (∀ v ∈ l, Good v) →
    ∀ (out : List Char) (b : Bool), endsWith1 out '[' = b →
    encItems l out = out ++ encItemsP l b
  | [], _, out, b, hb => by simp [encItems, encItemsP]
  | v :: vs, hl, out, b, hb => by
    have hv : Good v := hl v (by simp)
    have hvs : ∀ x ∈ vs, Good x := fun x hx => hl x (by simp [hx])
    rw [encItems, serialize_element]
    cases b with
    | true =>
      rw [if_pos hb, encV_hom v hv out,
        encItems_hom vs hvs (out ++ encPure v) false (endsWith1_after_value v hv out).1,
        encItemsP]
      simp
    | false =>
      rw [if_neg (by rw [hb]; simp), encV_hom v hv (out ++ [',']),
        encItems_hom vs hvs (out ++ [','] ++ encPure v) false
          (by
            have h := (endsWith1_after_value v hv (out ++ [','])).1
            simpa using h),
        encItemsP]
      simp
termination_by l => sizeOf l

/-- The entry loop appends the pure entry text, with the comma decision
tracking whether the buffer still ends in the opening brace. -/
theorem encEntries_hom : ∀ (l : List (List Char × JValue)),
    (∀ kv ∈ l, dq ∉ kv.1) → (∀ kv ∈ l, bsl ∉ kv.1) → (∀ kv ∈ l, Good kv.2) →
    ∀ (out : List Char) (b : Bool), endsWith1 out lcu = b →
    encEntries l out = out ++ encEntriesP l b
  | [], _, _, _, out, b, hb => by simp [encEntries, encEntriesP]
  | (k, v) :: es, hq, hb', hg, out, b, hb => by
    have hv : Good v := hg (k, v) (by simp)
    have hqs : ∀ kv ∈ es, dq ∉ kv.1 := fun kv hkv => hq kv (by simp [hkv])
    have hbs : ∀ kv ∈ es, bsl ∉ kv.1 := fun kv hkv => hb' kv (by simp [hkv])
    have hgs : ∀ kv ∈ es, Good kv.2 := fun kv hkv => hg kv (by simp [hkv])
    rw [encEntries, serialize_entry]
    cases b with
    | true =>
      rw [if_pos hb, serialize_str, encV_hom v hv _,
        encEntries_hom es hqs hbs hgs _ false
          (by
            have h := (endsWith1_after_value v hv
              ((out ++ dq :: (k ++ [dq])) ++ [':'])).2
            simpa using h),
        encEntriesP]
      simp
    | false =>
      rw [if_neg (by rw [hb]; simp), serialize_str, encV_hom v hv _,
        encEntries_hom es hqs hbs hgs _ false
          (by
            have h := (endsWith1_after_value v hv
              ((out ++ [','] ++ dq :: (k ++ [dq])) ++ [':'])).2
            simpa using h),
        encEntriesP]
      simp
termination_by l => sizeOf l

end

/-! ### Helper lemmas: decoding freshly encoded text -/

/-- A successful decode step starts with a token that closes nothing. -/
theorem parseValue_ok_peek (fuel : Nat) (d : Tokenizer) (r : JValue × Tokenizer)
    (h : parseValue fuel d = .ok r) :
    ∃ tok d', d.next = (.ok tok, d') ∧ tok.is_right_bracket = false ∧
      tok.is_right_curly = false := by
  match fuel with
  | 0 => simp [parseValue] at h
  | f + 1 =>
    rw [parseValue] at h
    rcases hn : d.next with ⟨res, d'⟩
    rw [hn] at h
    cases res with
    | error e => simp at h
    | ok tok =>
      cases tok with
      | bool b sp => exact ⟨.bool b sp, d', rfl, rfl, rfl⟩
      | null sp => exact ⟨.null sp, d', rfl, rfl, rfl⟩
      | number pn sp =>
        cases pn with
        | I64 m => exact ⟨.number (.I64 m) sp, d', rfl, rfl, rfl⟩
        | F64 q => exact ⟨.number (.F64 q) sp, d', rfl, rfl, rfl⟩
      | str ms sp =>
        cases ms with
        | Escaped s => exact ⟨.str (.Escaped s) sp, d', rfl, rfl, rfl⟩
        | NotEscaped s => exact ⟨.str (.NotEscaped s) sp, d', rfl, rfl, rfl⟩
      | eof =>
        dsimp only at h
        simp [Token.is_left_bracket, Token.is_left_curly, Token.checkOp] at h
      | bracket s sp =>
        by_cases hs1 : s = ['[']
        · subst hs1
          exact ⟨.bracket ['['] sp, d', rfl, by simp [Token.is_right_bracket, Token.checkOp, lcu, rcu],
            by simp [Token.is_right_curly, Token.checkOp, lcu, rcu]⟩
        · by_cases hs2 : s = [lcu]
          · subst hs2
            exact ⟨.bracket [lcu] sp, d', rfl,
              by simp [Token.is_right_bracket, Token.checkOp, lcu, rcu],
              by simp [Token.is_right_curly, Token.checkOp, lcu, rcu]⟩
          · dsimp only at h
            rw [if_neg (by simp [Token.is_left_bracket, Token.checkOp, hs1]),
              if_neg (by simp [Token.is_left_curly, Token.checkOp, hs2])] at h
            simp at h
      | operator s sp =>
        by_cases hs1 : s = ['[']
        · subst hs1
          exact ⟨.operator ['['] sp, d', rfl, by simp [Token.is_right_bracket, Token.checkOp, lcu, rcu],
            by simp [Token.is_right_curly, Token.checkOp, lcu, rcu]⟩
        · by_cases hs2 : s = [lcu]
          · subst hs2
            exact ⟨.operator [lcu] sp, d', rfl,
              by simp [Token.is_right_bracket, Token.checkOp, lcu, rcu],
              by simp [Token.is_right_curly, Token.checkOp, lcu, rcu]⟩
          · dsimp only at h
            rw [if_neg (by simp [Token.is_left_bracket, Token.checkOp, hs1]),
              if_neg (by simp [Token.is_left_curly, Token.checkOp, hs2])] at h
            simp at h

/-- `expect ","` on a comma. -/
theorem expect_comma (rest : List Char) (p : Nat) :
    (Tokenizer.mk (',' :: rest) p).expect [','] = (.ok (), ⟨rest, p + 1⟩) := by
  rw [Tokenizer.expect, next_cons_comma]
  rfl

/-- `expect ":"` on a colon. -/
theorem expect_colon (rest : List Char) (p : Nat) :
    (Tokenizer.mk (':' :: rest) p).expect [':'] = (.ok (), ⟨rest, p + 1⟩) := by
  rw [Tokenizer.expect, next_cons_colon]
  rfl

/-- A stop tail never begins with a character the number scan keeps. -/
theorem stopOK_no_digit (rest : List Char) (h : stopOK rest) :
    ∀ c cs, rest = c :: cs → is_digit_char c = false := by
  intro c cs hc
  subst hc
  simp only [stopOK] at h
  rcases h with h | h | h <;> (subst h; decide)

/-- The tail after an array element is a stop tail. -/
theorem stopOK_items_tail (vs : List JValue) (rest : List Char) :
    stopOK (encItemsP vs false ++ ']' :: rest) := by
  cases vs with
  | nil => simp [encItemsP, stopOK]
  | cons v vs => simp [encItemsP, stopOK]

/-- The tail after an object value is a stop tail. -/
theorem stopOK_entries_tail (es : List (List Char × JValue)) (rest : List Char) :
    stopOK (encEntriesP es false ++ rcu :: rest) := by
  cases es with
  | nil => simp [encEntriesP, stopOK]
  | cons kv es =>
    rcases kv with ⟨k, v⟩
    simp [encEntriesP, stopOK]

/-- `peek` is `next` on the clone, and the clone is the tokenizer itself. -/
theorem Tokenizer.peek_eq (t : Tokenizer) : t.peek = (t.next).1 :=
  rfl

/-- A generic map key decoded from an escape-free string literal. -/
theorem mapKeyString_clean (k rest : List Char) (p : Nat)
    (hq : dq ∉ k) (hb : bsl ∉ k) :
    mapKeyString ⟨dq :: (k ++ dq :: rest), p⟩ =
      .ok (k, ⟨rest, p + k.length + 2⟩) := by
  rw [mapKeyString, next_string_clean k rest p hq hb]

mutual

/-- Decoding the pure rendering of a `Good` value, followed by any stop
tail, returns exactly the value and leaves the tail. -/
theorem rt_val : ∀ (v : JValue), Good v → ∀ (fuel p : Nat) (rest : List Char),
    (encPure v).length < fuel → stopOK rest →
    ∃ p2, parseValue fuel ⟨encPure v ++ rest, p⟩ = .ok (v, ⟨rest, p2⟩)
  | .null, _, fuel, p, rest, hf, _ => by
    obtain ⟨f, rfl⟩ : ∃ f, fuel = f + 1 := ⟨fuel - 1, by omega⟩
    refine ⟨p + 4, ?_⟩
    have he : encPure JValue.null ++ rest = 'n' :: 'u' :: 'l' :: 'l' :: rest := by
      simp [encPure]
    rw [he, parseValue, next_cons_null]
  | .bool b, _, fuel, p, rest, hf, _ => by
    obtain ⟨f, rfl⟩ : ∃ f, fuel = f + 1 := ⟨fuel - 1, by omega⟩
    cases b with
    | true =>
      refine ⟨p + 4, ?_⟩
      have he : encPure (JValue.bool true) ++ rest = 't' :: 'r' :: 'u' :: 'e' :: rest := by
        simp [encPure]
      rw [he, parseValue, next_cons_true]
    | false =>
      refine ⟨p + 5, ?_⟩
      have he : encPure (JValue.bool false) ++ rest =
          'f' :: 'a' :: 'l' :: 's' :: 'e' :: rest := by
        simp [encPure]
      rw [he, parseValue, next_cons_false]
  | .int n, hG, fuel, p, rest, hf, hs => by
    cases hG with
    | int _ hlo hhi =>
      obtain ⟨f, rfl⟩ : ∃ f, fuel = f + 1 := ⟨fuel - 1, by omega⟩
      refine ⟨p + (intDecimal n).length, ?_⟩
      have he : encPure (JValue.int n) ++ rest = intDecimal n ++ rest := by
        simp [encPure]
      rw [he, parseValue, next_int n rest p hlo hhi (stopOK_no_digit rest hs)]
  | .float q, hG, fuel, p, rest, hf, hs => by cases hG
  | .str s, hG, fuel, p, rest, hf, hs => by
    cases hG with
    | str _ hq hb =>
      obtain ⟨f, rfl⟩ : ∃ f, fuel = f + 1 := ⟨fuel - 1, by omega⟩
      refine ⟨p + s.length + 2, ?_⟩
      have he : encPure (JValue.str s) ++ rest = dq :: (s ++ dq :: rest) := by
        simp [encPure]
      rw [he, parseValue, next_string_clean s rest p hq hb]
  | .arr l, hG, fuel, p, rest, hf, hs => by
    cases hG with
    | arr _ hl =>
      obtain ⟨f, rfl⟩ : ∃ f, fuel = f + 1 := ⟨fuel - 1, by omega⟩
      have hlen : (encPure (JValue.arr l)).length = (encItemsP l true).length + 2 := by
        simp [encPure]
      rw [hlen] at hf
      obtain ⟨p2, hrec⟩ := rt_items l hl f true [] (p + 1) rest (by omega) hs
      refine ⟨p2, ?_⟩
      have he : encPure (JValue.arr l) ++ rest =
          '[' :: (encItemsP l true ++ ']' :: rest) := by
        simp [encPure]
      rw [he, parseValue, next_cons_lbracket]
      dsimp only
      rw [if_pos (show (Token.bracket ['['] (p, p + 1)).is_left_bracket = true from rfl),
        hrec]
      simp
  | .obj l, hG, fuel, p, rest, hf, hs => by
    cases hG with
    | obj _ hq hb hg =>
      obtain ⟨f, rfl⟩ : ∃ f, fuel = f + 1 := ⟨fuel - 1, by omega⟩
      have hlen : (encPure (JValue.obj l)).length = (encEntriesP l true).length + 2 := by
        simp [encPure]
      rw [hlen] at hf
      obtain ⟨p2, hrec⟩ := rt_entries l hq hb hg f true [] (p + 1) rest (by omega) hs
      refine ⟨p2, ?_⟩
      have he : encPure (JValue.obj l) ++ rest =
          lcu :: (encEntriesP l true ++ rcu :: rest) := by
        simp [encPure]
      rw [he, parseValue, next_cons_lcurly]
      dsimp only
      rw [if_neg (by simp [Token.is_left_bracket, Token.checkOp, lcu]),
        if_pos (show (Token.bracket [lcu] (p, p + 1)).is_left_curly = true from rfl), hrec]
      simp
termination_by v => sizeOf v

/-- The sequence loop on the pure array-body rendering collects exactly the
remaining elements behind the accumulator. -/
theorem rt_items : ∀ (l : List JValue), (∀ v ∈ l, Good v) →
    ∀ (fuel : Nat) (first : Bool) (acc : List JValue) (p : Nat) (rest : List Char),
    (encItemsP l first).length + 1 < fuel → stopOK rest →
    ∃ p2, parseSeqElems fuel ⟨encItemsP l first ++ ']' :: rest, p⟩ first acc =
      .ok (.arr (acc.reverse ++ l), ⟨rest, p2⟩)
  | [], _, fuel, first, acc, p, rest, hf, hs => by
    obtain ⟨f, rfl⟩ : ∃ f, fuel = f + 1 := ⟨fuel - 1, by omega⟩
    refine ⟨p + 1, ?_⟩
    have he : encItemsP [] first ++ ']' :: rest = ']' :: rest := by simp [encItemsP]
    rw [he, parseSeqElems, Tokenizer.peek_eq, next_cons_rbracket]
    dsimp only
    rw [if_pos (show (Token.bracket [']'] (p, p + 1)).is_right_bracket = true from rfl)]
    simp
  | v :: vs, hl, fuel, first, acc, p, rest, hf, hs => by
    obtain ⟨f, rfl⟩ : ∃ f, fuel = f + 1 := ⟨fuel - 1, by omega⟩
    have hv : Good v := hl v (by simp)
    have hvs : ∀ x ∈ vs, Good x := fun x hx => hl x (by simp [hx])
    have hvne : 1 ≤ (encPure v).length := by
      have h1 := (encPure_shape v hv).1
      cases h : encPure v with
      | nil => exact absurd h h1
      | cons a as => simp [h]
    cases first with
    | true =>
      have hlen : (encItemsP (v :: vs) true).length =
          (encPure v).length + (encItemsP vs false).length := by
        simp [encItemsP]
      rw [hlen] at hf
      obtain ⟨p1, hpv⟩ := rt_val v hv f p (encItemsP vs false ++ ']' :: rest)
        (by omega) (stopOK_items_tail vs rest)
      obtain ⟨tok, d1, hnext, hrb, hrc⟩ := parseValue_ok_peek f _ _ hpv
      obtain ⟨p2, hrec⟩ := rt_items vs hvs f false (v :: acc) p1 rest (by omega) hs
      refine ⟨p2, ?_⟩
      have he : encItemsP (v :: vs) true ++ ']' :: rest =
          encPure v ++ (encItemsP vs false ++ ']' :: rest) := by
        simp [encItemsP]
      rw [he, parseSeqElems, Tokenizer.peek_eq, hnext]
      dsimp only
      rw [if_neg (by simp [hrb]),
        if_pos (show (true : Bool) = true from rfl)]
      dsimp only
      rw [hpv]
      dsimp only
      rw [hrec]
      simp
    | false =>
      have hlen : (encItemsP (v :: vs) false).length =
          1 + (encPure v).length + (encItemsP vs false).length := by
        simp [encItemsP]
        omega
      rw [hlen] at hf
      obtain ⟨p1, hpv⟩ := rt_val v hv f (p + 1) (encItemsP vs false ++ ']' :: rest)
        (by omega) (stopOK_items_tail vs rest)
      obtain ⟨p2, hrec⟩ := rt_items vs hvs f false (v :: acc) p1 rest (by omega) hs
      refine ⟨p2, ?_⟩
      have he : encItemsP (v :: vs) false ++ ']' :: rest =
          ',' :: (encPure v ++ (encItemsP vs false ++ ']' :: rest)) := by
        simp [encItemsP]
      rw [he, parseSeqElems, Tokenizer.peek_eq, next_cons_comma]
      dsimp only
      rw [if_neg (by simp [Token.is_right_bracket, Token.checkOp]), expect_comma,
        if_neg Bool.false_ne_true]
      dsimp only
      rw [hpv]
      dsimp only
      rw [hrec]
      simp
termination_by l => sizeOf l

/-- The map loop on the pure object-body rendering collects exactly the
remaining entries behind the accumulator. -/
theorem rt_entries : ∀ (l : List (List Char × JValue)),
    (∀ kv ∈ l, dq ∉ kv.1) → (∀ kv ∈ l, bsl ∉ kv.1) → (∀ kv ∈ l, Good kv.2) →
    ∀ (fuel : Nat) (first : Bool) (acc : List (List Char × JValue)) (p : Nat)
      (rest : List Char),
    (encEntriesP l first).length + 1 < fuel → stopOK rest →
    ∃ p2, parseObjEntries fuel ⟨encEntriesP l first ++ rcu :: rest, p⟩ first acc =
      .ok (.obj (acc.reverse ++ l), ⟨rest, p2⟩)
  | [], _, _, _, fuel, first, acc, p, rest, hf, hs => by
    obtain ⟨f, rfl⟩ : ∃ f, fuel = f + 1 := ⟨fuel - 1, by omega⟩
    refine ⟨p + 1, ?_⟩
    have he : encEntriesP [] first ++ rcu :: rest = rcu :: rest := by simp [encEntriesP]
    rw [he, parseObjEntries, Tokenizer.peek_eq, next_cons_rcurly]
    dsimp only
    rw [if_pos (show (Token.bracket [rcu] (p, p + 1)).is_right_curly = true from rfl)]
    simp
  | (k, v) :: es, hq, hb, hg, fuel, first, acc, p, rest, hf, hs => by
    obtain ⟨f, rfl⟩ : ∃ f, fuel = f + 1 := ⟨fuel - 1, by omega⟩
    have hv : Good v := hg (k, v) (by simp)
    have hkq : dq ∉ k := hq (k, v) (by simp)
    have hkb : bsl ∉ k := hb (k, v) (by simp)
    have hqs : ∀ kv ∈ es, dq ∉ kv.1 := fun kv hkv => hq kv (by simp [hkv])
    have hbs : ∀ kv ∈ es, bsl ∉ kv.1 := fun kv hkv => hb kv (by simp [hkv])
    have hgs : ∀ kv ∈ es, Good kv.2 := fun kv hkv => hg kv (by simp [hkv])
    have hvne : 1 ≤ (encPure v).length := by
      have h1 := (encPure_shape v hv).1
      cases h : encPure v with
      | nil => exact absurd h h1
      | cons a as => simp [h]
    cases first with
    | true =>
      have hlen : (encEntriesP ((k, v) :: es) true).length =
          k.length + 3 + (encPure v).length + (encEntriesP es false).length := by
        simp [encEntriesP]
        omega
      rw [hlen] at hf
      obtain ⟨p1, hpv⟩ := rt_val v hv f (p + k.length + 3)
        (encEntriesP es false ++ rcu :: rest) (by omega) (stopOK_entries_tail es rest)
      obtain ⟨p2, hrec⟩ := rt_entries es hqs hbs hgs f false ((k, v) :: acc) p1 rest
        (by omega) hs
      refine ⟨p2, ?_⟩
      have he : encEntriesP ((k, v) :: es) true ++ rcu :: rest =
          dq :: (k ++ dq ::
            (':' :: (encPure v ++ (encEntriesP es false ++ rcu :: rest)))) := by
        simp [encEntriesP]
      rw [he, parseObjEntries, Tokenizer.peek_eq, next_string_clean k _ p hkq hkb]
      dsimp only
      rw [if_neg (by simp [Token.is_right_curly, Token.checkOp]),
        if_pos (show (true : Bool) = true from rfl)]
      dsimp only
      rw [mapKeyString_clean k _ p hkq hkb]
      dsimp only
      rw [expect_colon]
      dsimp only
      have hp3 : p + k.length + 2 + 1 = p + k.length + 3 := by omega
      rw [hp3, hpv]
      dsimp only
      rw [hrec]
      simp
    | false =>
      have hlen : (encEntriesP ((k, v) :: es) false).length =
          k.length + 4 + (encPure v).length + (encEntriesP es false).length := by
        simp [encEntriesP]
        omega
      rw [hlen] at hf
      obtain ⟨p1, hpv⟩ := rt_val v hv f (p + k.length + 4)
        (encEntriesP es false ++ rcu :: rest) (by omega) (stopOK_entries_tail es rest)
      obtain ⟨p2, hrec⟩ := rt_entries es hqs hbs hgs f false ((k, v) :: acc) p1 rest
        (by omega) hs
      refine ⟨p2, ?_⟩
      have he : encEntriesP ((k, v) :: es) false ++ rcu :: rest =
          ',' :: (dq :: (k ++ dq ::
            (':' :: (encPure v ++ (encEntriesP es false ++ rcu :: rest))))) := by
        simp [encEntriesP]
      rw [he, parseObjEntries, Tokenizer.peek_eq, next_cons_comma]
      dsimp only
      rw [if_neg (by simp [Token.is_right_curly, Token.checkOp, rcu]), expect_comma,
        if_neg Bool.false_ne_true]
      dsimp only
      rw [mapKeyString_clean k _ (p + 1) hkq hkb]
      dsimp only
      rw [expect_colon]
      dsimp only
      have hp4 : p + 1 + k.length + 2 + 1 = p + k.length + 4 := by omega
      rw [hp4, hpv]
      dsimp only
      rw [hrec]
      simp
termination_by l => sizeOf l

end

/-- C1 (amended): the round-trip law does hold on the encoder's faithful
fragment. For every `Good` value - `null`, booleans, `i64`-range integers,
strings containing neither a quote nor a backslash, and arrays/objects
built from such values whose keys are equally clean - serializing with the
`Serializer` of `src/ser.rs` and deserializing the resulting text with
`de::from_str` returns exactly the original value. -/
theorem C1_roundtrip_amended (v : JValue) (hG : Good v) :
    jsonFromStr (jsonToString v) = .ok v := by
  have henc : jsonToString v = encPure v := by
    rw [jsonToString, encV_hom v hG []]
    simp
  rw [henc, jsonFromStr]
  have hshape := encPure_shape v hG
  rw [new_no_bom _ hshape.2.1]
  obtain ⟨p2, hp⟩ := rt_val v hG ((encPure v).length + 1) 0 [] (by omega) trivial
  rw [List.append_nil] at hp
  rw [hp]

/-- The amended round-trip law at a concrete object value. -/
theorem C1_roundtrip_amended_witness :
    jsonFromStr (jsonToString (JValue.obj [(['a'], JValue.int 1)])) =
      .ok (JValue.obj [(['a'], JValue.int 1)]) :=
  C1_roundtrip_amended (JValue.obj [(['a'], JValue.int 1)])
    (Good.obj _
      (by intro kv hkv; simp at hkv; rw [hkv]; decide)
      (by intro kv hkv; simp at hkv; rw [hkv]; decide)
      (by
        intro kv hkv
        simp at hkv
        rw [hkv]
        exact Good.int 1 (by norm_num) (by norm_num)))

end JsonRs
